import Mathlib

/-!
Shallow embedding of the physics/terrain core of the `bevy_tank_war`
repository (`src/ballistics.rs`, `src/landscape.rs`,
`src/geometry/circle.rs`), together with theorems settling the frozen
claims about it.

Modelling conventions:
* `f32`/`f64` arithmetic of the ballistics integrator and of the terrain
  is modelled by exact rationals `ℚ` (the claims about them concern the
  exact values, with float tolerance noted in the spec); the analytic
  geometry (`sqrt`, `asin`, `π`) is modelled over the reals `ℝ`.
* `std::time::Instant` cannot be modelled; the `created` field is kept as
  an abstract re-anchor counter (bumped where the source calls
  `Instant::now()`), and durations derived from the wall clock are passed
  in as explicit parameters.
* The occupancy buffer `Vec<u8>` is a `List ℕ` (0 = empty, nonzero =
  solid); in-bounds indexing in the source is modelled with `List.getD`.
-/

namespace TankWar

/-- Floor a rational point to its integer pixel, as the source's
`(pos.x.floor() as i32, pos.y.floor() as i32)`. -/
def pix (p : ℚ × ℚ) : ℤ × ℤ := (⌊p.1⌋, ⌊p.2⌋)

/-- `Ballistics` struct of `src/ballistics.rs` (fields in source order;
`Instant` modelled as an abstract counter). -/
structure Ballistics where
  created : ℕ
  start_pos : ℚ × ℚ
  start_velocity : ℚ × ℚ
  acceleration : ℚ × ℚ
  cur_pos : ℚ × ℚ
  last_updated : ℚ
  time_scale : ℚ
  rebound_efficiency : ℚ
deriving DecidableEq, Repr

namespace Ballistics

/-- `Ballistics::new`: `time_scale = 1`, `rebound_efficiency = 1`,
`last_updated = 0`, `cur_pos = start_pos`. -/
def new (start_pos start_velocity acceleration : ℚ × ℚ) : Ballistics :=
  { created := 0
    start_pos
    start_velocity
    acceleration
    cur_pos := start_pos
    last_updated := 0
    time_scale := 1
    rebound_efficiency := 1 }

/-- Builder `Ballistics::time_scale` (named `with_` here because the Lean
field projection already uses the source name): sets the scale and resets
`last_updated` to 0, all other fields kept. -/
def with_time_scale (b : Ballistics) (value : ℚ) : Ballistics :=
  { b with time_scale := value, last_updated := 0 }

/-- Builder `Ballistics::rebound_efficiency`: sets only that field. -/
def with_rebound_efficiency (b : Ballistics) (value : ℚ) : Ballistics :=
  { b with rebound_efficiency := value }

/-- `Ballistics::velocity`: `start_velocity + acceleration * time * 2.0`
(the source's non-textbook `* 2.0` is deliberate, see spec §9). -/
def velocity (b : Ballistics) (time : ℚ) : ℚ × ℚ :=
  (b.start_velocity.1 + b.acceleration.1 * time * 2,
   b.start_velocity.2 + b.acceleration.2 * time * 2)

/-- `Ballistics::pos`: `start_pos + (start_velocity + acceleration * time) * time`. -/
def pos (b : Ballistics) (time : ℚ) : ℚ × ℚ :=
  (b.start_pos.1 + (b.start_velocity.1 + b.acceleration.1 * time) * time,
   b.start_pos.2 + (b.start_velocity.2 + b.acceleration.2 * time) * time)

/-- `Ballistics::pos_and_velocity`. -/
def pos_and_velocity (b : Ballistics) : (ℚ × ℚ) × (ℚ × ℚ) :=
  (b.pos b.last_updated, b.velocity b.last_updated)

/-- `Ballistics::apply_rebound`: re-anchors the start state at the current
position, negating the requested velocity components and scaling the whole
velocity vector by `rebound_efficiency`; `created` is re-anchored
(`Instant::now()`, modelled as a counter bump) and `last_updated` reset. -/
def apply_rebound (b : Ballistics) (horizontal vertical : Bool) : Ballistics :=
  let p := b.pos b.last_updated
  let v := b.velocity b.last_updated
  let v : ℚ × ℚ := (if horizontal then -v.1 else v.1, if vertical then -v.2 else v.2)
  { b with
    start_pos := p
    start_velocity := (v.1 * b.rebound_efficiency, v.2 * b.rebound_efficiency)
    cur_pos := p
    created := b.created + 1
    last_updated := 0 }

end Ballistics

/-- State of `BallisticsPosIterator` (without the mutable borrow: the
iterator's `Ballistics` is threaded explicitly through `nextAux`). -/
structure IterSt where
  end_time : ℚ
  time_step : ℚ
  last_time : ℚ
  last_pos : ℤ × ℤ
  borders : Option (ℤ × ℤ)
deriving DecidableEq, Repr

/-- `Ballistics::positions_iter`. The source's
`end_time.unwrap_or_else(|| self.created.elapsed().as_secs_f32())` draws on
the wall clock in the `None` case; the already-unwrapped value is passed
here as `end_time` (all claims use `Some`). -/
def Ballistics.positions_iter (b : Ballistics) (end_time : ℚ)
    (borders : Option (ℤ × ℤ)) : IterSt :=
  let start_time := b.last_updated
  let end_time := end_time * b.time_scale
  let start_velocity := b.velocity start_time
  let end_velocity := b.velocity end_time
  let max_velocity :=
    max (max (max |start_velocity.1| |start_velocity.2|) |end_velocity.1|) |end_velocity.2|
  let time_period := end_time - start_time
  let time_step := if max_velocity = 0 then time_period else 1 / (2 * max_velocity)
  { end_time
    time_step
    last_time := start_time
    last_pos := pix b.cur_pos
    borders }

/-- Result of one `BallisticsPosIterator::next` call: a yielded pixel with
the updated trajectory and iterator, exhaustion (`None` in the source, with
the trajectory snapped to `end_time`), or fuel exhaustion (model artifact:
the source's `while` loop carries no bound). -/
inductive NextRes where
  | yield (p : ℤ × ℤ) (b : Ballistics) (it : IterSt)
  | done (b : Ballistics)
  | fuelOut (b : Ballistics) (it : IterSt) (next_time : ℚ) (rebound_prev : Bool)
deriving DecidableEq, Repr

/-- The source's `x < 0 || x >= width` check on a candidate pixel. -/
def horizRebound (p : ℤ × ℤ) (width : ℤ) : Bool :=
  decide (p.1 < 0 ∨ width ≤ p.1)

/-- The source's `y < 0 || y > height` check on a candidate pixel (note
the height bound is exclusive only above `height`, i.e. `height` itself is
still inside). -/
def vertRebound (p : ℤ × ℤ) (height : ℤ) : Bool :=
  decide (p.2 < 0 ∨ height < p.2)

/-- The `if rebound_on_prev_step` corner damping applied right after
`apply_rebound`: the horizontal start velocity and acceleration are forced
to zero. -/
def cornerDamp (rb : Bool) (b : Ballistics) : Ballistics :=
  if rb then
    { b with
      start_velocity := (0, b.start_velocity.2)
      acceleration := (0, b.acceleration.2) }
  else b

/-- The `while next_time <= self.end_time` loop body of
`BallisticsPosIterator::next`, one constructor per loop entry, `fuel`
bounding the number of iterations. `nt` is the local `next_time`, `rb` the
local `rebound_on_prev_step`. -/
def nextAux : ℕ → Ballistics → IterSt → ℚ → Bool → NextRes
  | 0, b, it, nt, rb => .fuelOut b it nt rb
  | f + 1, b, it, nt, rb =>
    if nt ≤ it.end_time then
      let nt' := nt + it.time_step
      let clamped_time := min it.end_time nt'
      let p := b.pos clamped_time
      let pi := pix p
      if it.last_pos = pi then
        nextAux f b it nt' rb
      else
        match it.borders with
        | some (width, height) =>
          if horizRebound pi width || vertRebound pi height then
            nextAux f
              (cornerDamp rb
                (b.apply_rebound (horizRebound pi width) (vertRebound pi height)))
              { it with end_time := it.end_time - it.last_time, last_time := 0 }
              0 true
          else
            .yield pi { b with last_updated := clamped_time, cur_pos := p }
              { it with last_time := nt', last_pos := pi }
        | none =>
          .yield pi { b with last_updated := clamped_time, cur_pos := p }
            { it with last_time := nt', last_pos := pi }
    else
      .done { b with cur_pos := b.pos it.end_time, last_updated := it.end_time }

/-- One `next()` call: the local `next_time` starts at `self.last_time` and
`rebound_on_prev_step` at `false`. -/
def iterNext (fuel : ℕ) (b : Ballistics) (it : IterSt) : NextRes :=
  nextAux fuel b it it.last_time false

/-- Drain the iterator: repeatedly call `next()` collecting the yielded
pixels; the final `Bool` is `true` when the run ended with `None`
(exhaustion) rather than with the model's fuel running out. -/
def iterRun : ℕ → ℕ → Ballistics → IterSt → List (ℤ × ℤ) × Ballistics × Bool
  | 0, _, b, _ => ([], b, false)
  | n + 1, fuel, b, it =>
    match iterNext fuel b it with
    | .yield p b' it' =>
      let r := iterRun n fuel b' it'
      (p :: r.1, r.2)
    | .done b' => ([], b', true)
    | .fuelOut b' _ _ _ => ([], b', false)

/-! ### Unfolding lemmas for the stepping loop

One lemma per control path of `BallisticsPosIterator::next`; the explicit
`F = f + 1` hypothesis lets them rewrite applications at literal fuel. -/

theorem nextAux_succ_done (F f : ℕ) (hF : F = f + 1) (b : Ballistics)
    (it : IterSt) (nt : ℚ) (rb : Bool) (hg : ¬ nt ≤ it.end_time) :
    nextAux F b it nt rb =
      .done { b with cur_pos := b.pos it.end_time, last_updated := it.end_time } := by
  subst hF
  simp only [nextAux]
  rw [if_neg hg]

theorem nextAux_succ_skip (F f : ℕ) (hF : F = f + 1) (b : Ballistics)
    (it : IterSt) (nt : ℚ) (rb : Bool) (hg : nt ≤ it.end_time)
    (hskip : it.last_pos = pix (b.pos (min it.end_time (nt + it.time_step)))) :
    nextAux F b it nt rb = nextAux f b it (nt + it.time_step) rb := by
  subst hF
  simp only [nextAux]
  rw [if_pos hg, if_pos hskip]

theorem nextAux_succ_yield_free (F f : ℕ) (hF : F = f + 1) (b : Ballistics)
    (it : IterSt) (nt : ℚ) (rb : Bool) (hg : nt ≤ it.end_time)
    (hne : ¬ it.last_pos = pix (b.pos (min it.end_time (nt + it.time_step))))
    (hb : it.borders = none) :
    nextAux F b it nt rb =
      .yield (pix (b.pos (min it.end_time (nt + it.time_step))))
        { b with
          last_updated := min it.end_time (nt + it.time_step)
          cur_pos := b.pos (min it.end_time (nt + it.time_step)) }
        { it with
          last_time := nt + it.time_step
          last_pos := pix (b.pos (min it.end_time (nt + it.time_step))) } := by
  subst hF
  simp only [nextAux]
  rw [if_pos hg, if_neg hne, hb]

theorem nextAux_succ_yield_borders (F f : ℕ) (hF : F = f + 1) (b : Ballistics)
    (it : IterSt) (nt : ℚ) (rb : Bool) (w h : ℤ) (hg : nt ≤ it.end_time)
    (hne : ¬ it.last_pos = pix (b.pos (min it.end_time (nt + it.time_step))))
    (hb : it.borders = some (w, h))
    (hin : (horizRebound (pix (b.pos (min it.end_time (nt + it.time_step)))) w
      || vertRebound (pix (b.pos (min it.end_time (nt + it.time_step)))) h)
      = false) :
    nextAux F b it nt rb =
      .yield (pix (b.pos (min it.end_time (nt + it.time_step))))
        { b with
          last_updated := min it.end_time (nt + it.time_step)
          cur_pos := b.pos (min it.end_time (nt + it.time_step)) }
        { it with
          last_time := nt + it.time_step
          last_pos := pix (b.pos (min it.end_time (nt + it.time_step))) } := by
  subst hF
  simp only [nextAux]
  rw [if_pos hg, if_neg hne, hb]
  simp only [hin, Bool.false_eq_true, if_false]

/-- The rebound path: an out-of-borders pixel transition is not yielded;
the loop continues at time 0 against the rebounded trajectory with the
remaining time budget `end_time - last_time`. -/
theorem nextAux_succ_rebound (F f : ℕ) (hF : F = f + 1) (b : Ballistics)
    (it : IterSt) (nt : ℚ) (rb : Bool) (w h : ℤ) (hg : nt ≤ it.end_time)
    (hne : ¬ it.last_pos = pix (b.pos (min it.end_time (nt + it.time_step))))
    (hb : it.borders = some (w, h))
    (hout : (horizRebound (pix (b.pos (min it.end_time (nt + it.time_step)))) w
      || vertRebound (pix (b.pos (min it.end_time (nt + it.time_step)))) h)
      = true) :
    nextAux F b it nt rb =
      nextAux f
        (cornerDamp rb
          (b.apply_rebound
            (horizRebound (pix (b.pos (min it.end_time (nt + it.time_step)))) w)
            (vertRebound (pix (b.pos (min it.end_time (nt + it.time_step)))) h)))
        { it with end_time := it.end_time - it.last_time, last_time := 0 }
        0 true := by
  subst hF
  simp only [nextAux]
  rw [if_pos hg, if_neg hne, hb]
  simp only [hout, if_true]

theorem iterRun_succ_yield (N n : ℕ) (hN : N = n + 1) (fuel : ℕ)
    (b : Ballistics) (it : IterSt) (p : ℤ × ℤ) (b' : Ballistics)
    (it' : IterSt) (h : iterNext fuel b it = .yield p b' it') :
    iterRun N fuel b it =
      (p :: (iterRun n fuel b' it').1, (iterRun n fuel b' it').2) := by
  subst hN
  simp only [iterRun, h]

theorem iterRun_succ_done (N n : ℕ) (hN : N = n + 1) (fuel : ℕ)
    (b : Ballistics) (it : IterSt) (b' : Ballistics)
    (h : iterNext fuel b it = .done b') :
    iterRun N fuel b it = ([], b', true) := by
  subst hN
  simp only [iterRun, h]

/-! ## Destructible terrain (`src/landscape.rs`) -/

/-- Rust `f64::round` (round half away from zero). -/
def rustRound (q : ℚ) : ℤ := if 0 ≤ q then ⌊q + 1 / 2⌋ else ⌈q - 1 / 2⌉

/-- `Landscape` struct of `src/landscape.rs`. The `Fbm` noise generator and
the texture handle are external resources: the noise function is passed as
an explicit `ℚ → ℚ` parameter (the source samples it only at `(sx, 0.)`)
where needed, and the texture is omitted. `Instant` fields are reduced to
the bookkeeping the claims need (`subsidence_started` as a flag; elapsed
time enters `update` as an explicit step count). -/
structure Landscape where
  width : ℕ
  height : ℕ
  buffer : List ℕ
  dx : ℚ
  changed : Bool
  subsidence_started : Bool
  subsidence_last_pos : ℕ
  subsidence_skip : ℕ
  subsidence_take : ℕ
deriving DecidableEq, Repr

namespace Landscape

/-- The column height computed in `Landscape::generate` for column `x`:
`(y_center + noise(x + dx) * amplitude).round().max(0.) as usize`, then
`min(height)`; `amplitude = height / 2` is fixed at construction. -/
def colY (noise : ℚ → ℚ) (dx : ℚ) (height : ℕ) (x : ℕ) : ℕ :=
  let y_center : ℚ := (height : ℚ) / 2
  let sx : ℚ := (x : ℚ) + dx
  let value : ℚ := noise sx * ((height : ℚ) / 2)
  min (rustRound (y_center + value)).toNat height

/-- `Landscape::generate`. The source writes each column twice through
strided iterators: `skip(x).step_by(stride).take(y)` zeroes buffer rows
`[0, y)` of column `x` and `skip(y*stride + x).step_by(stride)` sets rows
`[y, height)` to 1, so every cell of a `width*height` buffer is rewritten;
this is that rewrite, cell by cell (buffer row `i / width`, column
`i % width`). -/
def generate (noise : ℚ → ℚ) (l : Landscape) : Landscape :=
  { l with
    buffer := (List.range (l.width * l.height)).map fun i =>
      if i / l.width < colY noise l.dx l.height (i % l.width) then 0 else 1 }

/-- `Landscape::new`. The random horizontal offset and seed are external
inputs (`rand::thread_rng`): `dx` and the seeded noise function are passed
in. `width`/`height` are the source's `u16` values. -/
def new (noise : ℚ → ℚ) (dx : ℚ) (width height : ℕ) :
    Except String Landscape :=
  if min width height = 0 then
    .error "'width' and 'height' must be greater than 0"
  else
    let stride := width
    let l : Landscape :=
      { width
        height
        buffer := List.replicate (stride * height) 0
        dx
        changed := true
        subsidence_started := false
        subsidence_last_pos := 0
        subsidence_skip := 0
        subsidence_take := stride }
    .ok (l.generate noise)

/-- `Landscape::index`: point `(0, 0)` is the bottom-left pixel. -/
def index (l : Landscape) (x y : ℤ) : ℤ :=
  ((l.height : ℤ) - y - 1) * (l.width : ℤ) + x

/-- `Landscape::get_pixels_line_mut`: the returned mutable row view is
represented by its start index into the buffer and its clipped length. -/
def get_pixels_line (l : Landscape) (point : ℤ × ℤ) (length : ℕ) :
    Option (ℕ × ℕ) :=
  let x := point.1
  let y := point.2
  if x < 0 ∨ y < 0 ∨ x ≥ (l.width : ℤ) ∨ y ≥ (l.height : ℤ) ∨ length = 0 then
    none
  else
    some ((l.index x y).toNat, (min ((l.width : ℤ) - x) (length : ℤ)).toNat)

/-- `Landscape::is_not_empty`: bounds-checked occupancy query. -/
def is_not_empty (l : Landscape) (x y : ℤ) : Bool :=
  if x < 0 ∨ y < 0 ∨ x ≥ (l.width : ℤ) ∨ y ≥ (l.height : ℤ) then
    false
  else
    decide (0 < l.buffer.getD (l.index x y).toNat 0)

/-- `Landscape::subsidence`: (re)start the collapse, resetting the active
column window to the full width. -/
def subsidence (l : Landscape) : Landscape :=
  { l with
    subsidence_started := true
    subsidence_last_pos := 0
    subsidence_skip := 0
    subsidence_take := l.width }

/-- `Landscape::is_subsidence`. -/
def is_subsidence (l : Landscape) : Bool := l.subsidence_started

/-- One row pair of a drop step: the source zips the row above (`top`) with
the current row (`cur`), and inside the `[skip, skip+take)` column window
copies every solid `top` cell above an empty `cur` cell down and clears it.
`j` is the absolute column of the head; also returns the absolute columns
that changed (the source's `enumerate` indices are these minus `skip`). -/
def stepRows (skip take : ℕ) : ℕ → List ℕ → List ℕ →
    List ℕ × List ℕ × List ℕ
  | _, [], cur => ([], cur, [])
  | _, top, [] => (top, [], [])
  | j, t :: ts, c :: cs =>
    let r := stepRows skip take (j + 1) ts cs
    if skip ≤ j ∧ j < skip + take ∧ c = 0 ∧ t ≠ 0 then
      (0 :: r.1, t :: r.2.1, j :: r.2.2)
    else
      (t :: r.1, c :: r.2.1, r.2.2)

/-- The row sweep of one drop step, on the bottom-to-top list of rows
(the source decrements `cur_row_index` from the last row): each pair
(current row, row above) is transformed by `stepRows`, and the updated row
above is what the next pair sees. Returns the bottom-to-top rows and all
changed absolute columns. -/
def dropRev (skip take : ℕ) : List (List ℕ) → List (List ℕ) × List ℕ
  | [] => ([], [])
  | [r] => ([r], [])
  | cur :: top :: rest =>
    let s := stepRows skip take 0 top cur
    let r := dropRev skip take (s.1 :: rest)
    (s.2.1 :: r.1, s.2.2 ++ r.2)
  termination_by l => l.length

/-- Split the flat buffer into its `stride`-sized rows (top row first, as
stored). -/
def splitRows (stride : ℕ) (l : List ℕ) : List (List ℕ) :=
  if stride = 0 ∨ l = [] then []
  else l.take stride :: splitRows stride (l.drop stride)
  termination_by l.length
  decreasing_by
    simp only [not_or] at *
    have h0 : 0 < stride := Nat.pos_of_ne_zero (by tauto)
    have h1 : l ≠ [] := by tauto
    have := List.length_pos.mpr h1
    simp [List.length_drop]
    omega

/-- One drop step of `Landscape::update` (one iteration of the
`for _ in 0..delta` loop, without the dirty-flag/termination logic):
sweeps all row pairs and updates the active column window from the min/max
changed columns (`left_changed_pos`/`right_changed_pos`, which the source
tracks relative to `skip`). Returns whether anything changed. -/
def dropStep (l : Landscape) : Landscape × Bool :=
  let rows := splitRows l.width l.buffer
  let r := dropRev l.subsidence_skip l.subsidence_take rows.reverse
  let moves := r.2
  let left := (moves.map (· - l.subsidence_skip)).foldl min l.subsidence_take
  let right := (moves.map (· - l.subsidence_skip)).foldl max 0
  ({ l with
      buffer := r.1.reverse.flatten
      subsidence_skip := l.subsidence_skip + left
      subsidence_take := right + 1 },
   !moves.isEmpty)

/-- The `for _ in 0..delta` loop of `Landscape::update`: each step that
changes something sets the dirty flag; the first step that changes nothing
ends the subsidence and returns `true`. -/
def updateSteps : ℕ → Landscape → Landscape × Bool
  | 0, l => (l, false)
  | d + 1, l =>
    let r := l.dropStep
    if r.2 then updateSteps d { r.1 with changed := true }
    else ({ r.1 with subsidence_started := false }, true)

/-- `Landscape::update`. The source derives the step budget from the wall
clock (`delta = round(G*t²*TIME_SCALE) - subsidence_last_pos`); that
non-negative `delta` is passed in explicitly, and `subsidence_last_pos`
advances by it. -/
def update (l : Landscape) (delta : ℕ) : Landscape × Bool :=
  if l.subsidence_started then
    updateSteps delta
      { l with subsidence_last_pos := l.subsidence_last_pos + delta }
  else
    (l, false)

/-- The span clearing of `Landscape::destroy_circle` for one row view
obtained from `get_pixels_line_mut`: all its cells are set to `0`; the
returned flag tells whether any cleared cell was solid (the source's
`changed_count > 0`). -/
def clearLine (l : Landscape) (point : ℤ × ℤ) (len : ℕ) :
    Landscape × Bool :=
  match l.get_pixels_line point len with
  | none => (l, false)
  | some (idx, len') =>
    ({ l with
        buffer := l.buffer.mapIdx fun i v =>
          if idx ≤ i ∧ i < idx + len' then 0 else v },
     ((l.buffer.drop idx).take len').any (· ≠ 0))

/-- The `chunks(4)` / `step_by(2)` pairing of `Landscape::destroy_circle`:
from each chunk of four boundary points the first and third are kept; a
trailing chunk of three still gives a pair, and a chunk of one or two
points stops the loop (`points.len() != 2 → break`). -/
def boundaryPairs : List (ℤ × ℤ) → List ((ℤ × ℤ) × (ℤ × ℤ))
  | a :: _ :: c :: _ :: rest => (a, c) :: boundaryPairs rest
  | [a, _, c] => [(a, c)]
  | _ => []

/-- The span processing of one boundary-point pair in
`Landscape::destroy_circle`: `x = min(x1,x2).max(0)`,
`len = (max(x1,x2).max(0) - x) as u16` (the `u16` cast truncates), and the
row `[x, x+len)` is cleared at both `y1` and `y2`. -/
def destroySpan (l : Landscape) (pr : (ℤ × ℤ) × (ℤ × ℤ)) :
    Landscape × Bool :=
  let x1 := pr.1.1
  let y1 := pr.1.2
  let x2 := pr.2.1
  let y2 := pr.2.2
  let x := max (min x1 x2) 0
  let len : ℕ := (max (max x1 x2) 0 - x).toNat % 65536
  if len = 0 then (l, false)
  else
    let r1 := l.clearLine (x, y1) len
    let r2 := r1.1.clearLine (x, y2) len
    (r2.1, r1.2 || r2.2)

/-- `Landscape::destroy_circle`, parametrised by the discrete circle
boundary: the source walks `line_drawing::BresenhamCircle::new(position.x
as i32, position.y as i32, radius - 1)`, an external crate; its output is
taken here as an arbitrary point list `pts`, so every center/radius is
covered. The dirty flag is set iff some span cleared a solid cell. -/
def destroy_circle (l : Landscape) (pts : List (ℤ × ℤ)) : Landscape :=
  let r := (boundaryPairs pts).foldl
    (fun (acc : Landscape × Bool) pr =>
      let s := acc.1.destroySpan pr
      (s.1, acc.2 || s.2))
    (l, false)
  if r.2 then { r.1 with changed := true } else r.1

end Landscape

/-! ## Analytic geometry (`src/geometry/circle.rs`) -/

/-- `MyRect` of `src/geometry/rect.rs`, the axis-aligned rectangle used by
`Circle::area_of_rect_intersection`. -/
structure MyRect where
  left : ℝ
  right : ℝ
  top : ℝ
  bottom : ℝ

/-- `Circle` of `src/geometry/circle.rs` (the constructor asserts
`radius >= 0`). The `f32` analytic arithmetic (`sqrt`, `asin`, `π`) is
modelled exactly over `ℝ`. -/
structure Circle where
  center : ℝ × ℝ
  radius : ℝ

namespace Circle

/-- `Circle::section`: positive root of `y = h` against the circle at the
origin; `0` when `h` is not below the radius. -/
noncomputable def sect (c : Circle) (h : ℝ) : ℝ :=
  if h < c.radius then Real.sqrt (c.radius * c.radius - h * h) else 0

/-- `Circle::g`: indefinite integral of the circular segment. -/
noncomputable def g (c : Circle) (x h : ℝ) : ℝ :=
  let r2 := c.radius * c.radius
  let frac_x_r := x / c.radius
  (1 / 2) * (Real.sqrt (1 - frac_x_r * frac_x_r) * x * c.radius
    + r2 * Real.arcsin frac_x_r - 2 * h * x)

/-- `Circle::area_of_intersection_of_infinity_tall_rect`:
`g(s.min(x1).max(-s), h) - g(s.min(x0).max(-s), h)`. -/
noncomputable def area_of_intersection_of_infinity_tall_rect
    (c : Circle) (x0 x1 h : ℝ) : ℝ :=
  let s := c.sect h
  c.g (max (min s x1) (-s)) h - c.g (max (min s x0) (-s)) h

/-- The fall-through tail of
`Circle::area_of_normalized_rect_intersection`: flip a rectangle lying
fully below the axis, then `A(x0, x1, |bottom|) - A(x0, x1, |top|)`. -/
noncomputable def area_norm_tail (c : Circle) (rect : MyRect) : ℝ :=
  let rect := if rect.bottom < 0 ∧ rect.top < 0 then
      { rect with top := -rect.bottom, bottom := -rect.top }
    else rect
  c.area_of_intersection_of_infinity_tall_rect rect.left rect.right |rect.bottom|
    - c.area_of_intersection_of_infinity_tall_rect rect.left rect.right |rect.top|

/-- `Circle::area_of_normalized_rect_intersection`. The source recurses
once when the rectangle straddles the horizontal axis, on two half
rectangles whose `bottom = 0.0` immediately falls through to the tail;
that single unfolding is written out here. -/
noncomputable def area_of_normalized_rect_intersection
    (c : Circle) (rect : MyRect) : ℝ :=
  if rect.bottom < 0 ∧ ¬rect.top < 0 then
    c.area_norm_tail { rect with top := rect.top, bottom := 0 }
      + c.area_norm_tail { rect with top := -rect.bottom, bottom := 0 }
  else
    c.area_norm_tail rect

/-- `Circle::area_of_rect_intersection`: translate the rectangle into
circle-centred coordinates and dispatch. -/
noncomputable def area_of_rect_intersection (c : Circle) (rect : MyRect) : ℝ :=
  c.area_of_normalized_rect_intersection
    { left := rect.left - c.center.1
      right := rect.right - c.center.1
      top := rect.top - c.center.2
      bottom := rect.bottom - c.center.2 }

end Circle

/-! ## Claims C7, C8, C4: terrain construction, bounds handling, generation -/

/-- C7: `Landscape::new(width, height, ...)` returns a descriptive error
value (never panics — the model is total) exactly when `width == 0` or
`height == 0`; for positive dimensions it returns the terrain initialized
by `generate()`, whose occupancy buffer has length `width * height`. -/
theorem C7_new_validation (noise : ℚ → ℚ) (dx : ℚ) (w h : ℕ) :
    (min w h = 0 →
      Landscape.new noise dx w h =
        .error "'width' and 'height' must be greater than 0") ∧
    (min w h ≠ 0 →
      Landscape.new noise dx w h =
        .ok (Landscape.generate noise
          ⟨w, h, List.replicate (w * h) 0, dx, true, false, 0, 0, w⟩) ∧
      (Landscape.generate noise
          ⟨w, h, List.replicate (w * h) 0, dx, true, false, 0, 0, w⟩).buffer.length
        = w * h) := by
  constructor
  · intro h0
    simp [Landscape.new, h0]
  · intro h0
    refine ⟨by simp [Landscape.new, h0], ?_⟩
    simp [Landscape.generate]

/-- Witness for C7 at `w = 0, h = 5` (error case) and `w = 2, h = 3`
(success case). -/
theorem C7_new_validation_witness :
    (Landscape.new (fun _ => 0) 0 0 5 =
      .error "'width' and 'height' must be greater than 0") ∧
    (Landscape.new (fun _ => 0) 0 2 3 =
        .ok (Landscape.generate (fun _ => 0)
          ⟨2, 3, List.replicate (2 * 3) 0, 0, true, false, 0, 0, 2⟩) ∧
      (Landscape.generate (fun _ => 0)
          ⟨2, 3, List.replicate (2 * 3) 0, 0, true, false, 0, 0, 2⟩).buffer.length
        = 2 * 3) :=
  ⟨(C7_new_validation (fun _ => 0) 0 0 5).1 (by decide),
   (C7_new_validation (fun _ => 0) 0 2 3).2 (by decide)⟩

/-- C8: out-of-bounds terrain access is a soft failure: `is_not_empty`
returns `false` outside `[0, width) × [0, height)`, and
`get_pixels_line_mut` returns `None` exactly when the start point is out
of bounds or the length is 0, otherwise a view of
`min(length, width - x)` cells starting at `index(x, y)` that never leaves
the starting row. -/
theorem C8_soft_bounds (l : Landscape) (x y : ℤ) (len : ℕ) :
    (l.get_pixels_line (x, y) len = none ↔
      (x < 0 ∨ y < 0 ∨ x ≥ (l.width : ℤ) ∨ y ≥ (l.height : ℤ) ∨ len = 0)) ∧
    (∀ idx len', l.get_pixels_line (x, y) len = some (idx, len') →
      idx = (l.index x y).toNat ∧
      len' = min len ((l.width : ℤ) - x).toNat ∧
      ∀ k, k < len' → x + (k : ℤ) < (l.width : ℤ)) ∧
    ((x < 0 ∨ y < 0 ∨ x ≥ (l.width : ℤ) ∨ y ≥ (l.height : ℤ)) →
      l.is_not_empty x y = false) := by
  have hget : l.get_pixels_line (x, y) len =
      if x < 0 ∨ y < 0 ∨ x ≥ (l.width : ℤ) ∨ y ≥ (l.height : ℤ) ∨ len = 0 then
        none
      else
        some ((l.index x y).toNat, (min ((l.width : ℤ) - x) (len : ℤ)).toNat) :=
    rfl
  have hne : l.is_not_empty x y =
      if x < 0 ∨ y < 0 ∨ x ≥ (l.width : ℤ) ∨ y ≥ (l.height : ℤ) then false
      else decide (0 < l.buffer.getD (l.index x y).toNat 0) :=
    rfl
  refine ⟨?_, ?_, ?_⟩
  · rw [hget]
    split
    · next hcond => simpa using hcond
    · next hcond => simpa using hcond
  · intro idx len' hsome
    rw [hget] at hsome
    split at hsome
    · simp at hsome
    · next hcond =>
      push_neg at hcond
      obtain ⟨h1, h2, h3, h4, h5⟩ := hcond
      simp only [Option.some.injEq, Prod.mk.injEq] at hsome
      obtain ⟨hidx, hlen⟩ := hsome
      refine ⟨hidx.symm, by omega, fun k hk => by omega⟩
  · intro hcond
    rw [hne, if_pos hcond]

/-- Witness for C8 on a concrete 3×2 terrain: in-bounds line query at
`(1, 0)` with requested length 5 (clipped to 2), and an out-of-bounds
occupancy query. -/
theorem C8_soft_bounds_witness :
    ((⟨3, 2, [1, 1, 1, 1, 1, 1], 0, false, false, 0, 0, 3⟩ :
        Landscape).get_pixels_line (1, 0) 5 = none ↔
      ((1 : ℤ) < 0 ∨ (0 : ℤ) < 0 ∨ (3 : ℤ) ≤ 1 ∨ (2 : ℤ) ≤ 0 ∨ 5 = 0)) ∧
    ((-1 : ℤ) < 0 ∨ (7 : ℤ) < 0 ∨ (3 : ℤ) ≤ -1 ∨ (2 : ℤ) ≤ 7 →
      (⟨3, 2, [1, 1, 1, 1, 1, 1], 0, false, false, 0, 0, 3⟩ :
        Landscape).is_not_empty (-1) 7 = false) :=
  ⟨by
    have h := (C8_soft_bounds
      ⟨3, 2, [1, 1, 1, 1, 1, 1], 0, false, false, 0, 0, 3⟩ 1 0 5).1
    exact_mod_cast h,
   by
    have h := (C8_soft_bounds
      ⟨3, 2, [1, 1, 1, 1, 1, 1], 0, false, false, 0, 0, 3⟩ (-1) 7 5).2.2
    exact_mod_cast h⟩

/-- C4 counterexample: a 1×2 terrain with the zero noise function has
column height `y = colY = 1` (`round(2/2 + 0) = 1`), and `generate`
leaves the bottom cell — game coordinate `(0, 0)`, buffer index
`(2-0-1)*1+0 = 1` — SOLID, while the claim (`[0, y)` of the column set to
empty) demands it be empty. -/
theorem C4_generate_counterexample :
    ¬ (0 < Landscape.colY (fun _ => 0) 0 2 0 →
      (Landscape.generate (fun _ => 0)
        ⟨1, 2, [0, 0], 0, true, false, 0, 0, 1⟩).buffer.getD ((2 - 0 - 1) * 1 + 0) 0
        = 0) := by
  have hfloor : ⌊((2 : ℚ) / 2 + 0 * ((2 : ℚ) / 2) + 1 / 2)⌋ = 1 := by
    rw [Int.floor_eq_iff]
    norm_num
  have hcol : Landscape.colY (fun _ => 0) 0 2 0 = 1 := by
    rw [Landscape.colY, rustRound]
    norm_num at hfloor ⊢
    try rw [hfloor]
    try norm_num [hfloor]
  have hbuf : (Landscape.generate (fun _ => 0)
      ⟨1, 2, [0, 0], 0, true, false, 0, 0, 1⟩).buffer = [0, 1] := by
    rw [Landscape.generate]
    norm_num [List.range_succ, hcol]
  intro hclaim
  have hsolid := hclaim (by rw [hcol]; norm_num)
  rw [hbuf] at hsolid
  simp at hsolid

/-- C4 (amended): for every column `x < width` of the terrain,
`generate()` computes the column value
`y = clamp(round(height/2 + noise(x + dx) * height/2), 0, height)` (`colY`)
and sets, in bottom-left game coordinates, the cells `[0, height - y)` of
the column to solid and the cells `[height - y, height)` to empty (the
spec's claim has the two regions swapped: `y` counts the empty cells at
the top of the column, not the solid ones at the bottom). -/
theorem C4_generate_columns (noise : ℚ → ℚ) (l : Landscape) (x yg : ℕ)
    (hx : x < l.width) (hy : yg < l.height) :
    ((Landscape.generate noise l).buffer.getD
        ((l.height - yg - 1) * l.width + x) 0 ≠ 0
      ↔ yg < l.height - Landscape.colY noise l.dx l.height x) := by
  have hcol : Landscape.colY noise l.dx l.height x ≤ l.height :=
    min_le_right _ _
  have hidx : (l.height - yg - 1) * l.width + x < l.width * l.height := by
    have h1 : l.height - yg - 1 ≤ l.height - 1 := by omega
    have h2 : (l.height - yg - 1) * l.width ≤ (l.height - 1) * l.width :=
      Nat.mul_le_mul_right _ h1
    have h3 : (l.height - 1) * l.width + l.width = l.height * l.width := by
      have : l.height - 1 + 1 = l.height := by omega
      calc (l.height - 1) * l.width + l.width
          = (l.height - 1 + 1) * l.width := by ring
        _ = l.height * l.width := by rw [this]
    calc (l.height - yg - 1) * l.width + x
        < (l.height - 1) * l.width + l.width := by omega
      _ = l.height * l.width := h3
      _ = l.width * l.height := Nat.mul_comm _ _
  rw [Landscape.generate]
  have hlen : ((List.range (l.width * l.height)).map fun i =>
      if i / l.width < Landscape.colY noise l.dx l.height (i % l.width)
      then 0 else 1).length = l.width * l.height := by
    simp
  rw [List.getD_eq_getElem?_getD,
    List.getElem?_eq_getElem (by rw [hlen]; exact hidx), Option.getD_some]
  rw [List.getElem_map, List.getElem_range]
  have hdiv : ((l.height - yg - 1) * l.width + x) / l.width = l.height - yg - 1 := by
    rw [Nat.add_comm, Nat.add_mul_div_right _ _ (by omega : 0 < l.width),
      Nat.div_eq_of_lt hx]
    omega
  have hmod : ((l.height - yg - 1) * l.width + x) % l.width = x := by
    rw [Nat.add_comm, Nat.add_mul_mod_self_right, Nat.mod_eq_of_lt hx]
  rw [hdiv, hmod]
  split
  · next hlt =>
    have hup : l.height - Landscape.colY noise l.dx l.height x ≤ yg := by omega
    simp only [ne_eq, not_not]
    exact ⟨fun habs => absurd trivial habs, fun hP => absurd hP (by omega)⟩
  · next hge =>
    have hdown : yg < l.height - Landscape.colY noise l.dx l.height x := by omega
    simp only [ne_eq]
    exact ⟨fun _ => hdown, fun _ => one_ne_zero⟩

/-! ## Claim C10: `destroy_circle` safety -/

/-- `l'` differs from `l` at most by clearing cells at indices inside the
`width * height` terrain area, with the dimensions and the buffer length
untouched. -/
def Clears (l l' : Landscape) : Prop :=
  l'.width = l.width ∧ l'.height = l.height ∧
  l'.buffer.length = l.buffer.length ∧
  ∀ i, l'.buffer.getD i 0 ≠ l.buffer.getD i 0 →
    l'.buffer.getD i 0 = 0 ∧ i < l.width * l.height

theorem Clears.self_clears (l : Landscape) : Clears l l :=
  ⟨rfl, rfl, rfl, fun _ hi => absurd rfl hi⟩

theorem Clears.trans {l₀ l₁ l₂ : Landscape} (h₁ : Clears l₀ l₁)
    (h₂ : Clears l₁ l₂) : Clears l₀ l₂ := by
  obtain ⟨hw1, hh1, hl1, hc1⟩ := h₁
  obtain ⟨hw2, hh2, hl2, hc2⟩ := h₂
  refine ⟨hw2.trans hw1, hh2.trans hh1, hl2.trans hl1, fun i hi => ?_⟩
  by_cases hmid : l₂.buffer.getD i 0 = l₁.buffer.getD i 0
  · rw [hmid] at hi ⊢
    exact hc1 i hi
  · have := hc2 i hmid
    rw [hw1, hh1] at this
    exact this

/-- Any view handed out by `get_pixels_line_mut` lies inside the
`width * height` area of the buffer (so the source's slice
`&mut buffer[index..index + length]` cannot go out of bounds on a
well-formed terrain). -/
theorem get_pixels_line_inbounds (l : Landscape) (p : ℤ × ℤ) (len : ℕ)
    (idx len' : ℕ) (h : l.get_pixels_line p len = some (idx, len')) :
    idx + len' ≤ l.width * l.height := by
  obtain ⟨x, y⟩ := p
  have hget : l.get_pixels_line (x, y) len =
      if x < 0 ∨ y < 0 ∨ x ≥ (l.width : ℤ) ∨ y ≥ (l.height : ℤ) ∨ len = 0 then
        none
      else
        some ((l.index x y).toNat, (min ((l.width : ℤ) - x) (len : ℤ)).toNat) :=
    rfl
  rw [hget] at h
  split at h
  · simp at h
  · next hcond =>
    push_neg at hcond
    obtain ⟨hx0, hy0, hxw, hyh, -⟩ := hcond
    simp only [Option.some.injEq, Prod.mk.injEq] at h
    obtain ⟨hidx, hlen'⟩ := h
    set W : ℤ := (l.width : ℤ) with hW
    set H : ℤ := (l.height : ℤ) with hH
    have hWpos : 0 < W := by omega
    have hrow : (0 : ℤ) ≤ H - y - 1 := by omega
    have hidxZ : (idx : ℤ) = (H - y - 1) * W + x := by
      rw [← hidx, Landscape.index]
      exact Int.toNat_of_nonneg (add_nonneg (mul_nonneg hrow (by omega)) hx0)
    have hlenZ : (len' : ℤ) ≤ W - x := by
      rw [← hlen']
      have hmin : (0 : ℤ) ≤ min (W - x) (len : ℤ) :=
        le_min (by omega) (Int.natCast_nonneg _)
      rw [Int.toNat_of_nonneg hmin]
      exact min_le_left _ _
    have hsum : (idx : ℤ) + (len' : ℤ) ≤ (H - y) * W := by
      have hsplit : (H - y - 1) * W + W = (H - y) * W := by ring
      linarith
    have hfin : (H - y) * W ≤ H * W :=
      mul_le_mul_of_nonneg_right (by omega) (by omega)
    have : (idx : ℤ) + (len' : ℤ) ≤ (l.width : ℤ) * (l.height : ℤ) := by
      calc (idx : ℤ) + (len' : ℤ) ≤ (H - y) * W := hsum
        _ ≤ H * W := hfin
        _ = W * H := mul_comm _ _
    exact_mod_cast this

/-- `clearLine` only clears in-bounds cells. -/
theorem clearLine_clears (l : Landscape) (p : ℤ × ℤ) (len : ℕ) :
    Clears l (l.clearLine p len).1 := by
  rw [Landscape.clearLine]
  rcases hres : l.get_pixels_line p len with - | ⟨idx, len'⟩
  · exact Clears.self_clears l
  · have hb := get_pixels_line_inbounds l p len idx len' hres
    refine ⟨rfl, rfl, by simp, fun i hi => ?_⟩
    by_cases hlt : i < l.buffer.length
    · rw [List.getD_eq_getElem?_getD, List.getElem?_eq_getElem (by simpa using hlt),
        Option.getD_some, List.getElem_mapIdx] at hi ⊢
      split at hi
      · next hin =>
        rw [List.getD_eq_getElem?_getD, List.getElem?_eq_getElem hlt,
          Option.getD_some] at hi
        constructor
        · split
          · rfl
          · next hnin => exact absurd hin hnin
        · omega
      · next hnin =>
        rw [List.getD_eq_getElem?_getD, List.getElem?_eq_getElem hlt,
          Option.getD_some] at hi
        exact absurd rfl hi
    · rw [List.getD_eq_getElem?_getD, List.getElem?_eq_none (by simpa using hlt)] at hi
      rw [List.getD_eq_getElem?_getD, List.getElem?_eq_none (by omega)] at hi
      exact absurd rfl hi

/-- `destroySpan` only clears in-bounds cells. -/
theorem destroySpan_clears (l : Landscape) (pr : (ℤ × ℤ) × (ℤ × ℤ)) :
    Clears l (l.destroySpan pr).1 := by
  rw [Landscape.destroySpan]
  split
  · exact Clears.self_clears l
  · exact (clearLine_clears l _ _).trans (clearLine_clears _ _ _)

/-- The pair fold of `destroy_circle` only clears in-bounds cells. -/
theorem destroy_fold_clears (prs : List ((ℤ × ℤ) × (ℤ × ℤ))) :
    ∀ (l : Landscape) (b : Bool),
      Clears l ((prs.foldl
        (fun (acc : Landscape × Bool) pr =>
          let s := acc.1.destroySpan pr
          (s.1, acc.2 || s.2)) (l, b)).1) := by
  induction prs with
  | nil => exact fun l _ => Clears.self_clears l
  | cons pr rest ih =>
    intro l b
    simp only [List.foldl_cons]
    exact (destroySpan_clears l pr).trans (ih _ _)

/-- C10: for every boundary point sequence (hence for every center and
radius fed to the external Bresenham circle walk) `destroy_circle` is safe:
it never panics (the model is total and all row views are in bounds, cf.
`get_pixels_line_inbounds`), it leaves the buffer length unchanged, and
any cell it changes is set to 0 and lies inside the `width * height`
terrain area; spans outside the terrain are skipped by the clipped row
accessor. -/
theorem C10_destroy_circle_safe (l : Landscape) (pts : List (ℤ × ℤ)) :
    (l.destroy_circle pts).buffer.length = l.buffer.length ∧
    ∀ i, (l.destroy_circle pts).buffer.getD i 0 ≠ l.buffer.getD i 0 →
      (l.destroy_circle pts).buffer.getD i 0 = 0 ∧ i < l.width * l.height := by
  have hclears : Clears l (l.destroy_circle pts) := by
    rw [Landscape.destroy_circle]
    have h := destroy_fold_clears (Landscape.boundaryPairs pts) l false
    split
    · exact h
    · exact h
  exact ⟨hclears.2.2.1, hclears.2.2.2⟩

/-- Witness for C10: a 2×1 all-solid terrain with a boundary point triple
producing the span `x ∈ [0, 1)` at `y = 0`: the first cell is cleared
in bounds. -/
theorem C10_destroy_circle_safe_witness :
    ((⟨2, 1, [1, 1], 0, false, false, 0, 0, 2⟩ :
        Landscape).destroy_circle [(0, 0), (9, 9), (1, 0)]).buffer.length
      = ([1, 1] : List ℕ).length ∧
    (((⟨2, 1, [1, 1], 0, false, false, 0, 0, 2⟩ :
        Landscape).destroy_circle [(0, 0), (9, 9), (1, 0)]).buffer.getD 0 0 = 0
      ∧ 0 < 2 * 1) :=
  ⟨(C10_destroy_circle_safe ⟨2, 1, [1, 1], 0, false, false, 0, 0, 2⟩
      [(0, 0), (9, 9), (1, 0)]).1,
   (C10_destroy_circle_safe ⟨2, 1, [1, 1], 0, false, false, 0, 0, 2⟩
      [(0, 0), (9, 9), (1, 0)]).2 0 (by decide)⟩

/-! ## Claim C5: subsidence preserves the solid-cell count -/

/-- Number of solid (non-zero) cells of an occupancy buffer. -/
def solidCount : List ℕ → ℕ
  | [] => 0
  | v :: rest => (if v = 0 then 0 else 1) + solidCount rest

theorem solidCount_append (a b : List ℕ) :
    solidCount (a ++ b) = solidCount a + solidCount b := by
  induction a with
  | nil => simp [solidCount]
  | cons v rest ih => simp [solidCount, ih]; omega

theorem solidCount_flatten (L : List (List ℕ)) :
    solidCount L.flatten = (L.map solidCount).sum := by
  induction L with
  | nil => rfl
  | cons r rest ih => simp [List.flatten_cons, solidCount_append, ih]

/-- Each row-pair pass moves cell values without creating or destroying
solid cells. -/
theorem stepRows_count (skip take : ℕ) (top : List ℕ) :
    ∀ (j : ℕ) (cur : List ℕ),
      solidCount (Landscape.stepRows skip take j top cur).1 +
        solidCount (Landscape.stepRows skip take j top cur).2.1
        = solidCount top + solidCount cur := by
  induction top with
  | nil => intro j cur; cases cur <;> simp [Landscape.stepRows, solidCount]
  | cons t ts ih =>
    intro j cur
    cases cur with
    | nil => simp [Landscape.stepRows, solidCount]
    | cons c cs =>
      have ihcs := ih (j + 1) cs
      simp only [Landscape.stepRows]
      split
      · next hcond =>
        obtain ⟨-, -, hc, ht⟩ := hcond
        subst hc
        simp only [solidCount, if_pos rfl, if_neg ht]
        omega
      · simp only [solidCount]
        omega

/-- The bottom-to-top row sweep of one drop step preserves the total
solid count. -/
theorem dropRev_count (skip take : ℕ) : ∀ (rows : List (List ℕ)),
    (((Landscape.dropRev skip take rows).1.map solidCount)).sum
      = ((rows.map solidCount)).sum
  | [] => by simp [Landscape.dropRev]
  | [r] => by simp [Landscape.dropRev]
  | cur :: top :: rest => by
    simp only [Landscape.dropRev]
    have ih := dropRev_count skip take
      ((Landscape.stepRows skip take 0 top cur).1 :: rest)
    have hstep := stepRows_count skip take top 0 cur
    simp only [List.map_cons, List.sum_cons] at ih ⊢
    omega
  termination_by rows => rows.length

theorem splitRows_flatten (stride : ℕ) (hs : stride ≠ 0) :
    ∀ (l : List ℕ), (Landscape.splitRows stride l).flatten = l
  | l => by
    rw [Landscape.splitRows]
    split
    · next h =>
      rcases h with h | h
      · exact absurd h hs
      · simp [h]
    · next h =>
      have ih := splitRows_flatten stride hs (l.drop stride)
      simp [ih]
  termination_by l => l.length
  decreasing_by
    rename_i hcond
    obtain ⟨h1, h2⟩ := not_or.mp hcond
    have h3 := List.length_pos.mpr h2
    rw [List.length_drop]
    omega

/-- One drop step of the subsidence simulation preserves the solid count. -/
theorem dropStep_count (l : Landscape) (hw : l.width ≠ 0) :
    solidCount l.dropStep.1.buffer = solidCount l.buffer := by
  rw [Landscape.dropStep]
  simp only [solidCount_flatten, List.map_reverse, List.sum_reverse]
  rw [dropRev_count]
  rw [List.map_reverse, List.sum_reverse]
  rw [← solidCount_flatten, splitRows_flatten l.width hw l.buffer]

theorem updateSteps_count (d : ℕ) : ∀ (l : Landscape), l.width ≠ 0 →
    solidCount (Landscape.updateSteps d l).1.buffer = solidCount l.buffer := by
  induction d with
  | zero => intro l _; rfl
  | succ d ih =>
    intro l hw
    rw [Landscape.updateSteps]
    have hstep := dropStep_count l hw
    split
    · have h1 : solidCount (Landscape.updateSteps d
          { l.dropStep.1 with changed := true }).1.buffer
          = solidCount ({ l.dropStep.1 with changed := true } : Landscape).buffer :=
        ih _ hw
      exact h1.trans hstep
    · exact hstep

/-- C5: every `update()` call — with any non-negative step budget, so any
sequence of calls, including the final one that returns `true` — preserves
the number of solid cells in the occupancy buffer, and starting
`subsidence()` does not touch the buffer at all. -/
theorem C5_update_preserves_solid (l : Landscape) (delta : ℕ)
    (hw : l.width ≠ 0) :
    solidCount (l.update delta).1.buffer = solidCount l.buffer ∧
    l.subsidence.buffer = l.buffer := by
  refine ⟨?_, rfl⟩
  rw [Landscape.update]
  split
  · exact updateSteps_count delta _ hw
  · rfl

/-- Witness for C5: the 2×3 terrain with a floating block, two drop
steps. -/
theorem C5_update_preserves_solid_witness :
    solidCount ((⟨2, 3, [1, 0, 0, 0, 0, 1], 0, false, true, 0, 0, 2⟩ :
        Landscape).update 2).1.buffer
      = solidCount [1, 0, 0, 0, 0, 1] ∧
    (⟨2, 3, [1, 0, 0, 0, 0, 1], 0, false, true, 0, 0, 2⟩ :
        Landscape).subsidence.buffer = [1, 0, 0, 0, 0, 1] :=
  C5_update_preserves_solid
    ⟨2, 3, [1, 0, 0, 0, 0, 1], 0, false, true, 0, 0, 2⟩ 2 (by decide)

/-- Witness for C4 (amended) at the counterexample's configuration: the
bottom cell of the 1×2 zero-noise terrain is solid. -/
theorem C4_generate_columns_witness :
    (Landscape.generate (fun _ => 0)
        ⟨1, 2, [0, 0], 0, true, false, 0, 0, 1⟩).buffer.getD
        ((2 - 0 - 1) * 1 + 0) 0 ≠ 0
      ↔ 0 < 2 - Landscape.colY (fun _ => 0) 0 2 0 :=
  C4_generate_columns (fun _ => 0)
    ⟨1, 2, [0, 0], 0, true, false, 0, 0, 1⟩ 0 0 (by decide) (by decide)

/-! ## Claim C9: borderless stepping is a frame on the other fields -/

/-- All `Ballistics` fields other than `cur_pos` and `last_updated`
agree between `b` and `b'`. -/
def FrameEq (b b' : Ballistics) : Prop :=
  b'.start_pos = b.start_pos ∧ b'.start_velocity = b.start_velocity ∧
  b'.acceleration = b.acceleration ∧ b'.created = b.created ∧
  b'.time_scale = b.time_scale ∧ b'.rebound_efficiency = b.rebound_efficiency

theorem FrameEq.self_frame (b : Ballistics) : FrameEq b b :=
  ⟨rfl, rfl, rfl, rfl, rfl, rfl⟩

/-- C9: when the iterator was created without borders, every `next()`
call — whether it yields a pixel, exhausts (`None`), or (in the model)
runs out of fuel — changes at most `cur_pos` and `last_updated` of the
trajectory: `start_pos`, `start_velocity`, `acceleration`, `created`,
`time_scale` and `rebound_efficiency` are untouched. -/
theorem C9_no_borders_frame (f : ℕ) (b : Ballistics) (it : IterSt) (nt : ℚ)
    (rb : Bool) (hb : it.borders = none) :
    (∀ p b' it', nextAux f b it nt rb = .yield p b' it' → FrameEq b b') ∧
    (∀ b', nextAux f b it nt rb = .done b' → FrameEq b b') ∧
    (∀ b' it' nt' rb', nextAux f b it nt rb = .fuelOut b' it' nt' rb' →
      FrameEq b b') := by
  induction f generalizing nt with
  | zero =>
    refine ⟨fun p b' it' h => (NextRes.noConfusion h : False).elim,
      fun b' h => (NextRes.noConfusion h : False).elim,
      fun b' it' nt' rb' h => ?_⟩
    injection h with h1
    exact h1 ▸ FrameEq.self_frame b
  | succ f ih =>
    refine ⟨fun p b' it' h => ?_, fun b' h => ?_, fun b' it' nt' rb' h => ?_⟩
    · simp only [nextAux] at h
      split at h
      · split at h
        · exact (ih _).1 _ _ _ h
        · rw [hb] at h
          injection h with h1 h2 h3
          exact h2 ▸ FrameEq.self_frame b
      · exact (NextRes.noConfusion h : False).elim
    · simp only [nextAux] at h
      split at h
      · split at h
        · exact (ih _).2.1 _ h
        · rw [hb] at h
          exact (NextRes.noConfusion h : False).elim
      · injection h with h1
        exact h1 ▸ FrameEq.self_frame b
    · simp only [nextAux] at h
      split at h
      · split at h
        · exact (ih _).2.2 _ _ _ _ h
        · rw [hb] at h
          exact (NextRes.noConfusion h : False).elim
      · exact (NextRes.noConfusion h : False).elim

/-! ### A concrete borderless unit-speed run, evaluated by rewriting -/

theorem qfloor_half : ⌊(1 : ℚ) / 2⌋ = 0 := by
  rw [Int.floor_eq_iff]
  norm_num

theorem unit_setup :
    (Ballistics.new (0, 0) (1, 0) (0, 0)).positions_iter 1 none
      = ⟨1, 1 / 2, 0, (0, 0), none⟩ := by
  simp only [Ballistics.positions_iter, Ballistics.new, Ballistics.velocity, pix]
  norm_num [Int.floor_zero]

theorem unit_next1 :
    nextAux 5 (Ballistics.new (0, 0) (1, 0) (0, 0))
      ⟨1, 1 / 2, 0, (0, 0), none⟩ 0 false
      = .yield (1, 0) ⟨0, (0, 0), (1, 0), (0, 0), (1, 0), 1, 1, 1⟩
          ⟨1, 1 / 2, 1, (1, 0), none⟩ := by
  rw [nextAux_succ_skip 5 4 rfl (Ballistics.new (0, 0) (1, 0) (0, 0))
      ⟨1, 1 / 2, 0, (0, 0), none⟩ 0 false (by norm_num)
      (by
        simp only [Ballistics.pos, Ballistics.new, pix]
        norm_num [qfloor_half, Int.floor_zero])]
  rw [nextAux_succ_yield_free 4 3 rfl (Ballistics.new (0, 0) (1, 0) (0, 0))
      ⟨1, 1 / 2, 0, (0, 0), none⟩ (0 + 1 / 2) false (by norm_num)
      (by
        simp only [Ballistics.pos, Ballistics.new, pix]
        norm_num [Int.floor_one, Int.floor_zero, Prod.ext_iff])
      rfl]
  simp only [Ballistics.pos, Ballistics.new, pix]
  norm_num [Int.floor_one, Int.floor_zero]

theorem unit_next2 :
    nextAux 5 (⟨0, (0, 0), (1, 0), (0, 0), (1, 0), 1, 1, 1⟩ : Ballistics)
      ⟨1, 1 / 2, 1, (1, 0), none⟩ 1 false
      = .done ⟨0, (0, 0), (1, 0), (0, 0), (1, 0), 1, 1, 1⟩ := by
  rw [nextAux_succ_skip 5 4 rfl ⟨0, (0, 0), (1, 0), (0, 0), (1, 0), 1, 1, 1⟩
      ⟨1, 1 / 2, 1, (1, 0), none⟩ 1 false (by norm_num)
      (by
        simp only [Ballistics.pos, pix]
        norm_num [Int.floor_one, Int.floor_zero])]
  rw [nextAux_succ_done 4 3 rfl ⟨0, (0, 0), (1, 0), (0, 0), (1, 0), 1, 1, 1⟩
      ⟨1, 1 / 2, 1, (1, 0), none⟩ (1 + 1 / 2) false (by norm_num)]
  simp only [Ballistics.pos, pix]
  norm_num

theorem unit_run :
    iterRun 2 5 (Ballistics.new (0, 0) (1, 0) (0, 0))
      ⟨1, 1 / 2, 0, (0, 0), none⟩
      = ([(1, 0)], ⟨0, (0, 0), (1, 0), (0, 0), (1, 0), 1, 1, 1⟩, true) := by
  rw [iterRun_succ_yield 2 1 rfl 5 (Ballistics.new (0, 0) (1, 0) (0, 0))
      ⟨1, 1 / 2, 0, (0, 0), none⟩ (1, 0)
      ⟨0, (0, 0), (1, 0), (0, 0), (1, 0), 1, 1, 1⟩
      ⟨1, 1 / 2, 1, (1, 0), none⟩ unit_next1]
  rw [iterRun_succ_done 1 0 rfl 5 ⟨0, (0, 0), (1, 0), (0, 0), (1, 0), 1, 1, 1⟩
      ⟨1, 1 / 2, 1, (1, 0), none⟩ ⟨0, (0, 0), (1, 0), (0, 0), (1, 0), 1, 1, 1⟩
      unit_next2]

/-- Witness for C9: the first borderless `next()` call of a unit-speed
trajectory yields pixel `(1, 0)` with only `cur_pos`/`last_updated`
changed. -/
theorem C9_no_borders_frame_witness :
    FrameEq (Ballistics.new (0, 0) (1, 0) (0, 0))
      ⟨0, (0, 0), (1, 0), (0, 0), (1, 0), 1, 1, 1⟩ :=
  (C9_no_borders_frame 5 (Ballistics.new (0, 0) (1, 0) (0, 0))
      ⟨1, 1 / 2, 0, (0, 0), none⟩ 0 false rfl).1
    (1, 0) ⟨0, (0, 0), (1, 0), (0, 0), (1, 0), 1, 1, 1⟩
    ⟨1, 1 / 2, 1, (1, 0), none⟩ unit_next1

/-! ## Claim C6: the `cur_pos`/`last_updated` cache invariant -/

theorem pos_zero (b : Ballistics) : b.pos 0 = b.start_pos := by
  simp [Ballistics.pos]

/-- C6 counterexample: drive a fresh trajectory with velocity `(1, 0)` to
exhaustion at `end_time = 1` through `positions_iter` (leaving
`cur_pos = (1, 0)`, `last_updated = 1`), then apply the `time_scale`
builder: it resets `last_updated` to 0 but keeps `cur_pos = (1, 0)`,
while `pos(0) = (0, 0)` — the claimed invariant fails right after a
listed operation. -/
theorem C6_counterexample :
    ¬ (((iterRun 2 5 (Ballistics.new (0, 0) (1, 0) (0, 0))
          ((Ballistics.new (0, 0) (1, 0) (0, 0)).positions_iter 1
            none)).2.1.with_time_scale 2).cur_pos
        = ((iterRun 2 5 (Ballistics.new (0, 0) (1, 0) (0, 0))
          ((Ballistics.new (0, 0) (1, 0) (0, 0)).positions_iter 1
            none)).2.1.with_time_scale 2).pos
          ((iterRun 2 5 (Ballistics.new (0, 0) (1, 0) (0, 0))
          ((Ballistics.new (0, 0) (1, 0) (0, 0)).positions_iter 1
            none)).2.1.with_time_scale 2).last_updated) := by
  rw [unit_setup, unit_run]
  simp only [Ballistics.with_time_scale, Ballistics.pos]
  norm_num [Prod.ext_iff]

/-- The stepping loop always leaves `cur_pos = pos(last_updated)` on the
trajectory it returns, whether it yields or exhausts. -/
theorem nextAux_cache (f : ℕ) :
    ∀ (b : Ballistics) (it : IterSt) (nt : ℚ) (rb : Bool),
      (∀ p b' it', nextAux f b it nt rb = .yield p b' it' →
        b'.cur_pos = b'.pos b'.last_updated) ∧
      (∀ b', nextAux f b it nt rb = .done b' →
        b'.cur_pos = b'.pos b'.last_updated) := by
  induction f with
  | zero =>
    intro b it nt rb
    exact ⟨fun p b' it' h => (NextRes.noConfusion h : False).elim,
      fun b' h => (NextRes.noConfusion h : False).elim⟩
  | succ f ih =>
    intro b it nt rb
    refine ⟨fun p b' it' h => ?_, fun b' h => ?_⟩
    · simp only [nextAux] at h
      split at h
      · split at h
        · exact (ih b it _ rb).1 _ _ _ h
        · rcases hbs : it.borders with - | ⟨w, hgt⟩ <;> simp only [hbs] at h
          · injection h with h1 h2 h3
            subst h2
            rfl
          · by_cases hio : (horizRebound
                (pix (b.pos (min it.end_time (nt + it.time_step)))) w
              || vertRebound
                (pix (b.pos (min it.end_time (nt + it.time_step)))) hgt) = true
            · rw [if_pos hio] at h
              exact ((ih _ _ _ _).1 _ _ _ h)
            · rw [if_neg hio] at h
              injection h with h1 h2 h3
              subst h2
              rfl
      · exact (NextRes.noConfusion h : False).elim
    · simp only [nextAux] at h
      split at h
      · split at h
        · exact (ih b it _ rb).2 _ h
        · rcases hbs : it.borders with - | ⟨w, hgt⟩ <;> simp only [hbs] at h
          · exact (NextRes.noConfusion h : False).elim
          · by_cases hio : (horizRebound
                (pix (b.pos (min it.end_time (nt + it.time_step)))) w
              || vertRebound
                (pix (b.pos (min it.end_time (nt + it.time_step)))) hgt) = true
            · rw [if_pos hio] at h
              exact ((ih _ _ _ _).2 _ h)
            · rw [if_neg hio] at h
              exact (NextRes.noConfusion h : False).elim
      · injection h with h1
        subst h1
        rfl

/-- C6 (amended): the cache invariant `cur_pos = pos(last_updated)` holds
after construction, is preserved by the `rebound_efficiency` builder, is
re-established by every yielded pixel and by iterator exhaustion
(unconditionally, including across rebounds), but is preserved by the
`time_scale` builder only when the trajectory has not advanced
(`last_updated = 0`) — in general `with_time_scale` resets `last_updated`
to 0 while keeping the stale `cur_pos` (see the counterexample). -/
theorem C6_cache_invariant :
    (∀ p v a : ℚ × ℚ, (Ballistics.new p v a).cur_pos
      = (Ballistics.new p v a).pos (Ballistics.new p v a).last_updated) ∧
    (∀ (b : Ballistics) (e : ℚ), b.cur_pos = b.pos b.last_updated →
      (b.with_rebound_efficiency e).cur_pos
        = (b.with_rebound_efficiency e).pos
            (b.with_rebound_efficiency e).last_updated) ∧
    (∀ (b : Ballistics) (ts : ℚ), b.cur_pos = b.pos b.last_updated →
      b.last_updated = 0 →
      (b.with_time_scale ts).cur_pos
        = (b.with_time_scale ts).pos (b.with_time_scale ts).last_updated) ∧
    (∀ (f : ℕ) (b : Ballistics) (it : IterSt) (nt : ℚ) (rb : Bool) p b' it',
      nextAux f b it nt rb = .yield p b' it' →
      b'.cur_pos = b'.pos b'.last_updated) ∧
    (∀ (f : ℕ) (b : Ballistics) (it : IterSt) (nt : ℚ) (rb : Bool) b',
      nextAux f b it nt rb = .done b' →
      b'.cur_pos = b'.pos b'.last_updated) := by
  refine ⟨?_, ?_, ?_, ?_, ?_⟩
  · intro p v a
    exact (pos_zero (Ballistics.new p v a)).symm
  · intro b e h
    exact h
  · intro b ts h h0
    show b.cur_pos = (b.with_time_scale ts).pos 0
    rw [pos_zero, h, h0, pos_zero]
    rfl
  · intro f b it nt rb p b' it' h
    exact (nextAux_cache f b it nt rb).1 p b' it' h
  · intro f b it nt rb b' h
    exact (nextAux_cache f b it nt rb).2 b' h

/-- Witness for C6 (amended): a fresh trajectory re-scaled before any
stepping keeps the invariant, and the first yielded pixel of the concrete
unit-speed run establishes it. -/
theorem C6_cache_invariant_witness :
    ((Ballistics.new (0, 0) (1, 0) (0, 0)).with_time_scale 2).cur_pos
      = ((Ballistics.new (0, 0) (1, 0) (0, 0)).with_time_scale 2).pos
          ((Ballistics.new (0, 0) (1, 0) (0, 0)).with_time_scale 2).last_updated
    ∧ (⟨0, (0, 0), (1, 0), (0, 0), (1, 0), 1, 1, 1⟩ : Ballistics).cur_pos
      = (⟨0, (0, 0), (1, 0), (0, 0), (1, 0), 1, 1, 1⟩ : Ballistics).pos
          (⟨0, (0, 0), (1, 0), (0, 0), (1, 0), 1, 1, 1⟩ :
            Ballistics).last_updated :=
  ⟨C6_cache_invariant.2.2.1 (Ballistics.new (0, 0) (1, 0) (0, 0)) 2
      ((pos_zero (Ballistics.new (0, 0) (1, 0) (0, 0))).symm) rfl,
   C6_cache_invariant.2.2.2.1 5 (Ballistics.new (0, 0) (1, 0) (0, 0))
      ⟨1, 1 / 2, 0, (0, 0), none⟩ 0 false
      (1, 0) ⟨0, (0, 0), (1, 0), (0, 0), (1, 0), 1, 1, 1⟩
      ⟨1, 1 / 2, 1, (1, 0), none⟩ unit_next1⟩

/-! ## Claim C1: boundary rebound -/

/-- C1 (amended): when the candidate pixel transition of a bordered
iterator falls outside `x ∈ [0, width)` or `y ∈ [0, height]`, the pixel is
not yielded: the loop continues (from time 0, with the remaining budget
`end_time - last_time`) against the rebounded trajectory, whose start and
cached position are reset to the pre-transition position
`pos(last_updated)`, whose `last_updated` is reset to 0, and whose new
start velocity negates the component(s) along the violated axis/axes and
then scales the ENTIRE velocity vector by `rebound_efficiency` (the
original claim scales only the violated components; the code multiplies
the whole vector — see the counterexample). A rebound immediately
following a previous one additionally zeroes the horizontal velocity and
acceleration (`cornerDamp`). -/
theorem C1_rebound (b : Ballistics) (it : IterSt) (nt : ℚ) (rb : Bool)
    (f : ℕ) (w h : ℤ) (hb : it.borders = some (w, h))
    (hg : nt ≤ it.end_time)
    (hne : ¬ it.last_pos = pix (b.pos (min it.end_time (nt + it.time_step))))
    (hout : (horizRebound (pix (b.pos (min it.end_time (nt + it.time_step)))) w
      || vertRebound (pix (b.pos (min it.end_time (nt + it.time_step)))) h)
      = true) :
    nextAux (f + 1) b it nt rb =
      nextAux f
        (cornerDamp rb
          (b.apply_rebound
            (horizRebound (pix (b.pos (min it.end_time (nt + it.time_step)))) w)
            (vertRebound (pix (b.pos (min it.end_time (nt + it.time_step)))) h)))
        { it with end_time := it.end_time - it.last_time, last_time := 0 }
        0 true
    ∧ (b.apply_rebound
        (horizRebound (pix (b.pos (min it.end_time (nt + it.time_step)))) w)
        (vertRebound (pix (b.pos (min it.end_time (nt + it.time_step)))) h)).start_pos
      = b.pos b.last_updated
    ∧ (b.apply_rebound
        (horizRebound (pix (b.pos (min it.end_time (nt + it.time_step)))) w)
        (vertRebound (pix (b.pos (min it.end_time (nt + it.time_step)))) h)).cur_pos
      = b.pos b.last_updated
    ∧ (b.apply_rebound
        (horizRebound (pix (b.pos (min it.end_time (nt + it.time_step)))) w)
        (vertRebound (pix (b.pos (min it.end_time (nt + it.time_step)))) h)).last_updated
      = 0
    ∧ (b.apply_rebound
        (horizRebound (pix (b.pos (min it.end_time (nt + it.time_step)))) w)
        (vertRebound (pix (b.pos (min it.end_time (nt + it.time_step)))) h)).start_velocity
      = ((if horizRebound (pix (b.pos (min it.end_time (nt + it.time_step)))) w
            then -(b.velocity b.last_updated).1 else (b.velocity b.last_updated).1)
          * b.rebound_efficiency,
         (if vertRebound (pix (b.pos (min it.end_time (nt + it.time_step)))) h
            then -(b.velocity b.last_updated).2 else (b.velocity b.last_updated).2)
          * b.rebound_efficiency) :=
  ⟨nextAux_succ_rebound (f + 1) f rfl b it nt rb w h hg hne hb hout,
   rfl, rfl, rfl, rfl⟩

theorem qfloor_nineteen_halves : ⌊(19 : ℚ) / 2⌋ = 9 := by
  rw [Int.floor_eq_iff]
  norm_num

theorem qfloor_ten : ⌊(10 : ℚ)⌋ = 10 := by
  rw [Int.floor_eq_iff]
  norm_num

theorem qfloor_three_fourths : ⌊(3 : ℚ) / 4⌋ = 0 := by
  rw [Int.floor_eq_iff]
  norm_num

/-- The first candidate pixel of the concrete rebound scenario: a missile
at `(19/2, 1/2)` with velocity `(4, 2)` reaches pixel `(10, 0)` at the
first sample time `1/8`, which violates `x < width = 10`. -/
theorem reboundPix :
    pix (((Ballistics.new (19 / 2, 1 / 2) (4, 2) (0, 0)).with_rebound_efficiency
      (1 / 2)).pos (min (1 : ℚ) (0 + 1 / 8))) = (10, 0) := by
  have h1 : ((Ballistics.new (19 / 2, 1 / 2) (4, 2) (0, 0)).with_rebound_efficiency
      (1 / 2)).pos (min (1 : ℚ) (0 + 1 / 8)) = (10, 3 / 4) := by
    simp only [Ballistics.pos, Ballistics.new, Ballistics.with_rebound_efficiency]
    norm_num [min_def]
  rw [h1]
  simp [pix, qfloor_ten, qfloor_three_fourths]

/-- C1 counterexample: in the concrete rebound scenario (rebound
efficiency `1/2`, velocity `(4, 2)` at the rebound, horizontal axis
violated) the code produces start velocity `(-2, 1)`: the claim predicts
the non-violated vertical component stays `2`, but the code scales it to
`1` as well. -/
theorem C1_rebound_counterexample :
    nextAux 1 ((Ballistics.new (19 / 2, 1 / 2) (4, 2) (0, 0)).with_rebound_efficiency
        (1 / 2)) ⟨1, 1 / 8, 0, (9, 0), some (10, 100)⟩ 0 false
      = .fuelOut ⟨1, (19 / 2, 1 / 2), (-2, 1), (0, 0), (19 / 2, 1 / 2), 0, 1, 1 / 2⟩
          ⟨1 - 0, 1 / 8, 0, (9, 0), some (10, 100)⟩ 0 true
    ∧ ((Ballistics.new (19 / 2, 1 / 2) (4, 2) (0, 0)).with_rebound_efficiency
        (1 / 2)).velocity 0 = (4, 2)
    ∧ ¬ ((-2 : ℚ), (1 : ℚ)).2 = 2 := by
  refine ⟨?_, ?_, by norm_num⟩
  · rw [nextAux_succ_rebound 1 0 rfl
        ((Ballistics.new (19 / 2, 1 / 2) (4, 2) (0, 0)).with_rebound_efficiency
          (1 / 2)) ⟨1, 1 / 8, 0, (9, 0), some (10, 100)⟩ 0 false 10 100
        (by norm_num)
        (by
          show ¬ (9, 0) = pix (((Ballistics.new (19 / 2, 1 / 2) (4, 2)
            (0, 0)).with_rebound_efficiency (1 / 2)).pos (min (1 : ℚ) (0 + 1 / 8)))
          rw [reboundPix]
          decide)
        rfl
        (by
          show (horizRebound (pix (((Ballistics.new (19 / 2, 1 / 2) (4, 2)
              (0, 0)).with_rebound_efficiency (1 / 2)).pos
                (min (1 : ℚ) (0 + 1 / 8)))) 10
            || vertRebound (pix (((Ballistics.new (19 / 2, 1 / 2) (4, 2)
              (0, 0)).with_rebound_efficiency (1 / 2)).pos
                (min (1 : ℚ) (0 + 1 / 8)))) 100) = true
          rw [reboundPix]
          decide)]
    rw [nextAux]
    have hpixeq : pix (((Ballistics.new (19 / 2, 1 / 2) (4, 2)
        (0, 0)).with_rebound_efficiency (1 / 2)).pos
        (min (⟨1, 1 / 8, 0, (9, 0), some (10, 100)⟩ : IterSt).end_time
          (0 + (⟨1, 1 / 8, 0, (9, 0), some (10, 100)⟩ : IterSt).time_step)))
        = (10, 0) := reboundPix
    rw [hpixeq]
    simp only [cornerDamp, Ballistics.apply_rebound,
      Ballistics.with_rebound_efficiency, Ballistics.new, Ballistics.pos,
      Ballistics.velocity, horizRebound, vertRebound]
    norm_num
  · simp only [Ballistics.velocity, Ballistics.new,
      Ballistics.with_rebound_efficiency]
    norm_num

/-- Witness for C1 (amended) at the concrete rebound scenario: the
rebounded trajectory is re-anchored at the pre-transition position with
`last_updated = 0`. -/
theorem C1_rebound_witness :
    (((Ballistics.new (19 / 2, 1 / 2) (4, 2) (0, 0)).with_rebound_efficiency
        (1 / 2)).apply_rebound
      (horizRebound (pix (((Ballistics.new (19 / 2, 1 / 2) (4, 2)
        (0, 0)).with_rebound_efficiency (1 / 2)).pos
          (min (1 : ℚ) (0 + 1 / 8)))) 10)
      (vertRebound (pix (((Ballistics.new (19 / 2, 1 / 2) (4, 2)
        (0, 0)).with_rebound_efficiency (1 / 2)).pos
          (min (1 : ℚ) (0 + 1 / 8)))) 100)).cur_pos
      = ((Ballistics.new (19 / 2, 1 / 2) (4, 2) (0, 0)).with_rebound_efficiency
          (1 / 2)).pos
          ((Ballistics.new (19 / 2, 1 / 2) (4, 2) (0, 0)).with_rebound_efficiency
            (1 / 2)).last_updated
    ∧ (((Ballistics.new (19 / 2, 1 / 2) (4, 2) (0, 0)).with_rebound_efficiency
        (1 / 2)).apply_rebound
      (horizRebound (pix (((Ballistics.new (19 / 2, 1 / 2) (4, 2)
        (0, 0)).with_rebound_efficiency (1 / 2)).pos
          (min (1 : ℚ) (0 + 1 / 8)))) 10)
      (vertRebound (pix (((Ballistics.new (19 / 2, 1 / 2) (4, 2)
        (0, 0)).with_rebound_efficiency (1 / 2)).pos
          (min (1 : ℚ) (0 + 1 / 8)))) 100)).last_updated = 0 :=
  have hmain := C1_rebound
    ((Ballistics.new (19 / 2, 1 / 2) (4, 2) (0, 0)).with_rebound_efficiency (1 / 2))
    ⟨1, 1 / 8, 0, (9, 0), some (10, 100)⟩ 0 false 0 10 100 rfl
    (by norm_num)
    (by
      show ¬ (9, 0) = pix (((Ballistics.new (19 / 2, 1 / 2) (4, 2)
        (0, 0)).with_rebound_efficiency (1 / 2)).pos (min (1 : ℚ) (0 + 1 / 8)))
      rw [reboundPix]
      decide)
    (by
      show (horizRebound (pix (((Ballistics.new (19 / 2, 1 / 2) (4, 2)
          (0, 0)).with_rebound_efficiency (1 / 2)).pos
            (min (1 : ℚ) (0 + 1 / 8)))) 10
        || vertRebound (pix (((Ballistics.new (19 / 2, 1 / 2) (4, 2)
          (0, 0)).with_rebound_efficiency (1 / 2)).pos
            (min (1 : ℚ) (0 + 1 / 8)))) 100) = true
      rw [reboundPix]
      decide)
  ⟨hmain.2.2.1, hmain.2.2.2.1⟩

/-! ## Claim C3: exact circle–rectangle intersection areas -/

namespace Circle

theorem sect_nonneg (c : Circle) (h : ℝ) : 0 ≤ c.sect h := by
  rw [sect]
  split
  · exact Real.sqrt_nonneg _
  · exact le_refl 0

/-- When `(x, h)` lies in the closed disk, the `s.min(x).max(-s)` clamp of
`area_of_intersection_of_infinity_tall_rect` is the identity. -/
theorem clamp_eq_self (c : Circle) (hr : 0 ≤ c.radius) (x h : ℝ) (hh : 0 ≤ h)
    (hin : x * x + h * h ≤ c.radius * c.radius) :
    max (min (c.sect h) x) (-(c.sect h)) = x := by
  rw [sect]
  split
  · next hlt =>
    have hx2 : x * x ≤ c.radius * c.radius - h * h := by linarith
    have habs : |x| ≤ Real.sqrt (c.radius * c.radius - h * h) := by
      rw [← Real.sqrt_mul_self_eq_abs]
      exact Real.sqrt_le_sqrt hx2
    obtain ⟨hlo, hhi⟩ := abs_le.mp habs
    rw [min_eq_right hhi, max_eq_left hlo]
  · next hge =>
    push_neg at hge
    have h2 : c.radius * c.radius ≤ h * h := mul_self_le_mul_self hr hge
    have hx0 : x = 0 := by nlinarith [mul_self_nonneg x]
    subst hx0
    simp

/-- The `2 * h * x` term is the only part of `g` that depends on the
height. -/
theorem g_height_diff (c : Circle) (x h0 h1 : ℝ) :
    c.g x h0 - c.g x h1 = x * (h1 - h0) := by
  simp only [g]
  ring

/-- The tail of the normalized-area computation on a rectangle with
`0 ≤ bottom ≤ top` whose corners lie in the closed disk: exactly the full
rectangle area. -/
theorem area_norm_tail_inside (c : Circle) (rect : MyRect)
    (hr : 0 ≤ c.radius) (hb0 : 0 ≤ rect.bottom) (hbt : rect.bottom ≤ rect.top)
    (h1 : rect.left * rect.left + rect.bottom * rect.bottom
      ≤ c.radius * c.radius)
    (h2 : rect.right * rect.right + rect.bottom * rect.bottom
      ≤ c.radius * c.radius)
    (h3 : rect.left * rect.left + rect.top * rect.top ≤ c.radius * c.radius)
    (h4 : rect.right * rect.right + rect.top * rect.top
      ≤ c.radius * c.radius) :
    c.area_norm_tail rect
      = (rect.right - rect.left) * (rect.top - rect.bottom) := by
  have htop0 : 0 ≤ rect.top := le_trans hb0 hbt
  rw [area_norm_tail, if_neg (by intro hcon; linarith [hcon.1])]
  rw [area_of_intersection_of_infinity_tall_rect,
    area_of_intersection_of_infinity_tall_rect]
  rw [abs_of_nonneg hb0, abs_of_nonneg htop0]
  rw [clamp_eq_self c hr _ _ hb0 h2, clamp_eq_self c hr _ _ hb0 h1,
    clamp_eq_self c hr _ _ htop0 h4, clamp_eq_self c hr _ _ htop0 h3]
  have d1 := g_height_diff c rect.right rect.bottom rect.top
  have d2 := g_height_diff c rect.left rect.bottom rect.top
  nlinarith [d1, d2]

/-- Flipping a rectangle that lies fully below the axis (the tail's own
first step) gives the same tail value as the explicitly flipped
rectangle. -/
theorem area_norm_tail_flip (c : Circle) (rect : MyRect)
    (hb : rect.bottom < 0) (ht : rect.top < 0) :
    c.area_norm_tail rect
      = c.area_norm_tail
          { rect with top := -rect.bottom, bottom := -rect.top } := by
  rw [area_norm_tail, area_norm_tail]
  rw [if_pos ⟨hb, ht⟩, if_neg (by intro hcon; obtain ⟨hc1, -⟩ := hcon; dsimp at hc1; linarith)]

/-- The three control paths of
`area_of_normalized_rect_intersection` as equations. -/
theorem area_norm_split (c : Circle) (rect : MyRect) (hb : rect.bottom < 0)
    (ht : ¬rect.top < 0) :
    c.area_of_normalized_rect_intersection rect
      = c.area_norm_tail { rect with top := rect.top, bottom := 0 }
        + c.area_norm_tail { rect with top := -rect.bottom, bottom := 0 } := by
  rw [area_of_normalized_rect_intersection, if_pos ⟨hb, ht⟩]

theorem area_norm_no_split (c : Circle) (rect : MyRect)
    (h : ¬(rect.bottom < 0 ∧ ¬rect.top < 0)) :
    c.area_of_normalized_rect_intersection rect = c.area_norm_tail rect := by
  rw [area_of_normalized_rect_intersection, if_neg h]

/-- Full-rectangle area for a rectangle inside the disk, in
circle-centred coordinates, across all three control paths. -/
theorem area_norm_inside (c : Circle) (rect : MyRect) (hr : 0 ≤ c.radius)
    (hbt : rect.bottom ≤ rect.top)
    (h1 : rect.left * rect.left + rect.bottom * rect.bottom
      ≤ c.radius * c.radius)
    (h2 : rect.right * rect.right + rect.bottom * rect.bottom
      ≤ c.radius * c.radius)
    (h3 : rect.left * rect.left + rect.top * rect.top ≤ c.radius * c.radius)
    (h4 : rect.right * rect.right + rect.top * rect.top
      ≤ c.radius * c.radius) :
    c.area_of_normalized_rect_intersection rect
      = (rect.right - rect.left) * (rect.top - rect.bottom) := by
  by_cases hb : rect.bottom < 0
  · by_cases ht : rect.top < 0
    · rw [area_norm_no_split c rect (by intro hcon; exact hcon.2 ht)]
      rw [area_norm_tail_flip c rect hb ht]
      rw [area_norm_tail_inside c _ hr (by dsimp; linarith) (by dsimp; linarith)
        (by dsimp; nlinarith) (by dsimp; nlinarith) (by dsimp; nlinarith)
        (by dsimp; nlinarith)]
      dsimp
      ring
    · rw [area_norm_split c rect hb ht]
      push_neg at ht
      have hx0 : rect.left * rect.left ≤ c.radius * c.radius := by nlinarith
      have hx1 : rect.right * rect.right ≤ c.radius * c.radius := by nlinarith
      rw [area_norm_tail_inside c _ hr (by dsimp; exact le_refl 0)
        (by dsimp; exact ht) (by dsimp; nlinarith) (by dsimp; nlinarith)
        (by dsimp; nlinarith) (by dsimp; nlinarith)]
      rw [area_norm_tail_inside c _ hr (by dsimp; exact le_refl 0)
        (by dsimp; linarith) (by dsimp; nlinarith) (by dsimp; nlinarith)
        (by dsimp; nlinarith) (by dsimp; nlinarith)]
      dsimp
      ring
  · push_neg at hb
    rw [area_norm_no_split c rect (by intro hcon; linarith [hcon.1])]
    exact area_norm_tail_inside c rect hr hb hbt h1 h2 h3 h4

theorem g_at_radius (c : Circle) (hr : 0 < c.radius) :
    c.g c.radius 0 = Real.pi * (c.radius * c.radius) / 4 := by
  rw [g]
  rw [div_self (ne_of_gt hr)]
  norm_num [Real.arcsin_one]
  ring

theorem g_at_neg_radius (c : Circle) (hr : 0 < c.radius) :
    c.g (-c.radius) 0 = -(Real.pi * (c.radius * c.radius) / 4) := by
  rw [g]
  rw [neg_div, div_self (ne_of_gt hr)]
  norm_num [Real.arcsin_neg_one]
  ring

theorem g_at_zero (c : Circle) (h : ℝ) : c.g 0 h = 0 := by
  rw [g]
  norm_num [Real.arcsin_zero]

/-- The tail value on a half-plane-clipped rectangle `[x0, x1] × [0, top]`
that contains the whole upper half-disk: half the disk area. -/
theorem area_norm_tail_halfdisk (c : Circle) (x0 x1 top : ℝ)
    (hr : 0 < c.radius) (hx0 : x0 ≤ -c.radius) (hx1 : c.radius ≤ x1)
    (htop : c.radius ≤ top) :
    c.area_norm_tail ⟨x0, x1, top, 0⟩
      = Real.pi * (c.radius * c.radius) / 2 := by
  have hrtop : 0 < top := lt_of_lt_of_le hr htop
  rw [area_norm_tail,
    if_neg (by intro hcon; obtain ⟨hc1, -⟩ := hcon; dsimp at hc1; linarith)]
  dsimp only
  rw [area_of_intersection_of_infinity_tall_rect,
    area_of_intersection_of_infinity_tall_rect]
  have hs0 : c.sect |(0 : ℝ)| = c.radius := by
    rw [abs_zero, sect, if_pos hr]
    rw [show c.radius * c.radius - 0 * 0 = c.radius * c.radius by ring]
    exact Real.sqrt_mul_self (le_of_lt hr)
  have hstop : c.sect |top| = 0 := by
    rw [abs_of_pos hrtop, sect, if_neg (by linarith)]
  rw [hs0, hstop, abs_zero, abs_of_pos hrtop]
  rw [min_eq_left hx1, max_eq_left (by linarith : -c.radius ≤ c.radius)]
  rw [min_eq_right (by linarith : x0 ≤ c.radius), max_eq_right hx0]
  rw [min_eq_left (by linarith : (0 : ℝ) ≤ x1)]
  rw [min_eq_right (by linarith : x0 ≤ (0 : ℝ))]
  rw [neg_zero, max_self, max_eq_right (by linarith : x0 ≤ (0 : ℝ))]
  rw [g_at_radius c hr, g_at_neg_radius c hr, g_at_zero]
  ring

/-- On a horizontal strip at height `h` that lies strictly right of the
disk, the clamp sends both bounds to the section `s`. -/
theorem sect_lt_of_outside (c : Circle) (x h : ℝ) (hx : 0 < x)
    (hout : c.radius * c.radius < x * x + h * h) :
    c.sect h < x := by
  rw [sect]
  split
  · next hlt =>
    rcases le_or_lt (c.radius * c.radius - h * h) 0 with hz | hz
    · rw [Real.sqrt_eq_zero'.mpr hz]
      exact hx
    · have h1 : c.radius * c.radius - h * h < x * x := by nlinarith
      have h2 : Real.sqrt (c.radius * c.radius - h * h)
          < Real.sqrt (x * x) := Real.sqrt_lt_sqrt (le_of_lt hz) h1
      rwa [Real.sqrt_mul_self (le_of_lt hx)] at h2
  · exact hx

/-- `area_of_intersection_of_infinity_tall_rect` vanishes on a horizontal
span `[x0, x1] × {h}` that stays strictly outside the closed disk. -/
theorem area_inf_tall_outside (c : Circle) (x0 x1 h : ℝ)
    (hr : 0 ≤ c.radius) (hh : 0 ≤ h) (hx01 : x0 ≤ x1)
    (hout : ∀ x, x0 ≤ x → x ≤ x1 → c.radius * c.radius < x * x + h * h) :
    c.area_of_intersection_of_infinity_tall_rect x0 x1 h = 0 := by
  have hsnn : 0 ≤ c.sect h := c.sect_nonneg h
  rw [area_of_intersection_of_infinity_tall_rect]
  rcases le_or_lt x0 0 with hx0s | hx0s
  · rcases le_or_lt 0 x1 with hx1s | hx1s
    · -- the span crosses x = 0, so the disk lies strictly below it
      have h0 := hout 0 hx0s hx1s
      have hrh : c.radius < h := by nlinarith
      have hs : c.sect h = 0 := by rw [sect, if_neg (by linarith)]
      rw [hs]
      rw [min_eq_left hx1s, neg_zero, max_self]
      rw [min_eq_right hx0s, max_eq_right hx0s]
      simp
    · -- whole span strictly left of the disk: clamp both bounds to `-s`
      have hslt : c.sect h < -x1 :=
        sect_lt_of_outside c (-x1) h (by linarith)
          (by
            have := hout x1 hx01 (le_refl x1)
            nlinarith)
      rw [min_eq_right (by linarith : x1 ≤ c.sect h),
        max_eq_right (by linarith : x1 ≤ -c.sect h),
        min_eq_right (by linarith : x0 ≤ c.sect h),
        max_eq_right (by linarith : x0 ≤ -c.sect h)]
      simp
  · -- whole span strictly right of the disk: clamp both bounds to `s`
    have hslt : c.sect h < x0 :=
      sect_lt_of_outside c x0 h hx0s (hout x0 (le_refl x0) hx01)
    rw [min_eq_left (by linarith : c.sect h ≤ x1),
      min_eq_left (by linarith : c.sect h ≤ x0),
      max_eq_left (by linarith : -c.sect h ≤ c.sect h)]
    simp

/-- Evaluate `area_norm_tail` on a rectangle with `bottom = 0` and
`0 ≤ top`: no flip, both absolute values drop. -/
theorem area_norm_tail_eval (c : Circle) (x0 x1 top : ℝ) (htop : 0 ≤ top) :
    c.area_norm_tail ⟨x0, x1, top, 0⟩
      = c.area_of_intersection_of_infinity_tall_rect x0 x1 0
        - c.area_of_intersection_of_infinity_tall_rect x0 x1 top := by
  rw [area_norm_tail,
    if_neg (by intro hcon; obtain ⟨hc1, -⟩ := hcon; dsimp at hc1; linarith)]
  dsimp only
  rw [abs_zero, abs_of_nonneg htop]

/-- The normalized-area computation vanishes on a rectangle all of whose
points lie strictly outside the closed disk, across all control paths. -/
theorem area_norm_outside (c : Circle) (rect : MyRect) (hr : 0 ≤ c.radius)
    (hlr : rect.left ≤ rect.right) (hbt : rect.bottom ≤ rect.top)
    (hout : ∀ x y, rect.left ≤ x → x ≤ rect.right → rect.bottom ≤ y →
      y ≤ rect.top → c.radius * c.radius < x * x + y * y) :
    c.area_of_normalized_rect_intersection rect = 0 := by
  by_cases hb : rect.bottom < 0
  · by_cases ht : rect.top < 0
    · rw [area_norm_no_split c rect (fun hcon => hcon.2 ht)]
      rw [area_norm_tail, if_pos ⟨hb, ht⟩]
      dsimp only
      rw [abs_of_nonneg (by linarith : (0 : ℝ) ≤ -rect.top),
        abs_of_nonneg (by linarith : (0 : ℝ) ≤ -rect.bottom)]
      rw [area_inf_tall_outside c rect.left rect.right (-rect.top) hr
          (by linarith) hlr
          (fun x hx0 hx1 => by
            have hpt := hout x rect.top hx0 hx1 hbt (le_refl _)
            nlinarith),
        area_inf_tall_outside c rect.left rect.right (-rect.bottom) hr
          (by linarith) hlr
          (fun x hx0 hx1 => by
            have hpt := hout x rect.bottom hx0 hx1 (le_refl _) hbt
            nlinarith)]
      ring
    · rw [area_norm_split c rect hb ht]
      push_neg at ht
      have hbneg : (0 : ℝ) ≤ -rect.bottom := by linarith
      rw [area_norm_tail_eval c rect.left rect.right rect.top ht,
        area_norm_tail_eval c rect.left rect.right (-rect.bottom) hbneg]
      rw [area_inf_tall_outside c rect.left rect.right 0 hr (le_refl 0) hlr
          (fun x hx0 hx1 => by
            have hpt := hout x 0 hx0 hx1 (le_of_lt hb) ht
            linarith),
        area_inf_tall_outside c rect.left rect.right rect.top hr ht hlr
          (fun x hx0 hx1 => by
            have hpt := hout x rect.top hx0 hx1 hbt (le_refl _)
            linarith),
        area_inf_tall_outside c rect.left rect.right (-rect.bottom) hr
          hbneg hlr
          (fun x hx0 hx1 => by
            have hpt := hout x rect.bottom hx0 hx1 (le_refl _) hbt
            nlinarith)]
      ring
  · push_neg at hb
    rw [area_norm_no_split c rect (fun hcon => absurd hcon.1 (not_lt.mpr hb))]
    rw [area_norm_tail, if_neg (fun hcon => absurd hcon.1 (not_lt.mpr hb))]
    rw [abs_of_nonneg hb, abs_of_nonneg (le_trans hb hbt)]
    rw [area_inf_tall_outside c rect.left rect.right rect.bottom hr hb hlr
        (fun x hx0 hx1 => hout x rect.bottom hx0 hx1 (le_refl _) hbt),
      area_inf_tall_outside c rect.left rect.right rect.top hr
        (le_trans hb hbt) hlr
        (fun x hx0 hx1 => hout x rect.top hx0 hx1 hbt (le_refl _))]
    ring

/-- Disk entirely inside the rectangle (normalized coordinates): the
split path adds two half-disk halves. -/
theorem area_norm_disk_inside (c : Circle) (rect : MyRect)
    (hr : 0 < c.radius) (hl : rect.left ≤ -c.radius)
    (hrt : c.radius ≤ rect.right) (ht : c.radius ≤ rect.top)
    (hb : rect.bottom ≤ -c.radius) :
    c.area_of_normalized_rect_intersection rect
      = Real.pi * (c.radius * c.radius) := by
  rw [area_norm_split c rect (by linarith) (by push_neg; linarith)]
  rw [area_norm_tail_halfdisk c rect.left rect.right rect.top hr hl hrt ht,
    area_norm_tail_halfdisk c rect.left rect.right (-rect.bottom) hr hl hrt
      (by linarith)]
  ring

/-- Quadrant rectangle `[0, r] × [0, r]` in normalized coordinates: a
quarter of the disk area. -/
theorem area_norm_quadrant (c : Circle) (hr : 0 < c.radius) :
    c.area_of_normalized_rect_intersection ⟨0, c.radius, c.radius, 0⟩
      = Real.pi * (c.radius * c.radius) / 4 := by
  rw [area_norm_no_split c _
    (by intro hcon; exact absurd hcon.1 (lt_irrefl 0))]
  rw [area_norm_tail_eval c 0 c.radius c.radius (le_of_lt hr)]
  have hs0 : c.sect 0 = c.radius := by
    rw [sect, if_pos hr,
      show c.radius * c.radius - 0 * 0 = c.radius * c.radius by ring]
    exact Real.sqrt_mul_self (le_of_lt hr)
  have hsr : c.sect c.radius = 0 := by
    rw [sect, if_neg (lt_irrefl _)]
  rw [area_of_intersection_of_infinity_tall_rect,
    area_of_intersection_of_infinity_tall_rect, hs0, hsr]
  rw [min_self, max_eq_left (by linarith : -c.radius ≤ c.radius)]
  rw [min_eq_right (le_of_lt hr), max_eq_left (by linarith : -c.radius ≤ 0)]
  rw [neg_zero, min_eq_left (le_of_lt hr), min_self, max_self]
  rw [g_at_radius c hr, g_at_zero, g_at_zero]
  ring

/-- The unit circle at the origin against `[0, 1] × [0, 1]`, through the
public entry `area_of_rect_intersection`. -/
theorem unit_quadrant :
    (Circle.mk ((0 : ℝ), (0 : ℝ)) 1).area_of_rect_intersection ⟨0, 1, 1, 0⟩
      = Real.pi / 4 := by
  have h := area_norm_quadrant (Circle.mk ((0 : ℝ), (0 : ℝ)) 1) one_pos
  norm_num at h
  rw [area_of_rect_intersection]
  norm_num
  exact h

theorem sect_zero (c : Circle) (hr : 0 < c.radius) : c.sect 0 = c.radius := by
  rw [sect, if_pos hr,
    show c.radius * c.radius - 0 * 0 = c.radius * c.radius by ring]
  exact Real.sqrt_mul_self hr.le

theorem sect_radius_self (c : Circle) : c.sect c.radius = 0 := by
  rw [sect, if_neg (lt_irrefl _)]

/-- The infinite-strip area over `[0, r]` at height `0`: a quarter
disk. -/
theorem area_inf_tall_right (c : Circle) (hr : 0 < c.radius) :
    c.area_of_intersection_of_infinity_tall_rect 0 c.radius 0
      = Real.pi * (c.radius * c.radius) / 4 := by
  rw [area_of_intersection_of_infinity_tall_rect, sect_zero c hr]
  rw [min_self, max_eq_left (by linarith : -c.radius ≤ c.radius)]
  rw [min_eq_right hr.le, max_eq_left (by linarith : -c.radius ≤ (0 : ℝ))]
  rw [g_at_radius c hr, g_at_zero]
  ring

/-- The infinite-strip area over `[-r, 0]` at height `0`: a quarter
disk. -/
theorem area_inf_tall_left (c : Circle) (hr : 0 < c.radius) :
    c.area_of_intersection_of_infinity_tall_rect (-c.radius) 0 0
      = Real.pi * (c.radius * c.radius) / 4 := by
  rw [area_of_intersection_of_infinity_tall_rect, sect_zero c hr]
  rw [min_eq_right hr.le, max_eq_left (by linarith : -c.radius ≤ (0 : ℝ))]
  rw [min_eq_right (by linarith : -c.radius ≤ c.radius), max_self]
  rw [g_at_zero, g_at_neg_radius c hr]
  ring

/-- The infinite-strip area at height `r` vanishes (the section is
empty). -/
theorem area_inf_tall_top_right (c : Circle) (hr : 0 < c.radius) :
    c.area_of_intersection_of_infinity_tall_rect 0 c.radius c.radius
      = 0 := by
  rw [area_of_intersection_of_infinity_tall_rect, sect_radius_self, neg_zero]
  rw [min_eq_left hr.le, min_self, max_self]
  simp

theorem area_inf_tall_top_left (c : Circle) (hr : 0 < c.radius) :
    c.area_of_intersection_of_infinity_tall_rect (-c.radius) 0 c.radius
      = 0 := by
  rw [area_of_intersection_of_infinity_tall_rect, sect_radius_self, neg_zero]
  rw [min_self, min_eq_right (by linarith : -c.radius ≤ (0 : ℝ))]
  rw [max_self, max_eq_right (by linarith : -c.radius ≤ (0 : ℝ))]
  simp

theorem area_norm_tail_quad_right (c : Circle) (hr : 0 < c.radius) :
    c.area_norm_tail ⟨0, c.radius, c.radius, 0⟩
      = Real.pi * (c.radius * c.radius) / 4 := by
  rw [area_norm_tail_eval c _ _ _ hr.le, area_inf_tall_right c hr,
    area_inf_tall_top_right c hr]
  ring

theorem area_norm_tail_quad_left (c : Circle) (hr : 0 < c.radius) :
    c.area_norm_tail ⟨-c.radius, 0, c.radius, 0⟩
      = Real.pi * (c.radius * c.radius) / 4 := by
  rw [area_norm_tail_eval c _ _ _ hr.le, area_inf_tall_left c hr,
    area_inf_tall_top_left c hr]
  ring

theorem area_norm_tail_zero (c : Circle) (x0 x1 : ℝ) :
    c.area_norm_tail ⟨x0, x1, 0, 0⟩ = 0 := by
  rw [area_norm_tail_eval c x0 x1 0 (le_refl 0)]
  simp

/-- The left upper quadrant rectangle in normalized coordinates. -/
theorem area_norm_quadrant_left (c : Circle) (hr : 0 < c.radius) :
    c.area_of_normalized_rect_intersection ⟨-c.radius, 0, c.radius, 0⟩
      = Real.pi * (c.radius * c.radius) / 4 := by
  rw [area_norm_no_split c _
      (by intro hcon; exact absurd hcon.1 (lt_irrefl 0)),
    area_norm_tail_quad_left c hr]

/-- A lower quadrant rectangle `[x0, x1] × [-r, 0]` in normalized
coordinates: the split path contributes the degenerate `[0, 0]` strip
plus the reflected upper strip. -/
theorem area_norm_quad_bottom (c : Circle) (hr : 0 < c.radius) (x0 x1 : ℝ)
    (htail : c.area_norm_tail ⟨x0, x1, c.radius, 0⟩
      = Real.pi * (c.radius * c.radius) / 4) :
    c.area_of_normalized_rect_intersection ⟨x0, x1, 0, -c.radius⟩
      = Real.pi * (c.radius * c.radius) / 4 := by
  rw [area_norm_split c _ (by dsimp; linarith) (by norm_num)]
  show c.area_norm_tail ⟨x0, x1, (0 : ℝ), 0⟩
      + c.area_norm_tail ⟨x0, x1, -(-c.radius), 0⟩
    = Real.pi * (c.radius * c.radius) / 4
  rw [area_norm_tail_zero, neg_neg, htail]
  ring

theorem area_norm_quadrant_rb (c : Circle) (hr : 0 < c.radius) :
    c.area_of_normalized_rect_intersection ⟨0, c.radius, 0, -c.radius⟩
      = Real.pi * (c.radius * c.radius) / 4 :=
  area_norm_quad_bottom c hr 0 c.radius (area_norm_tail_quad_right c hr)

theorem area_norm_quadrant_lb (c : Circle) (hr : 0 < c.radius) :
    c.area_of_normalized_rect_intersection ⟨-c.radius, 0, 0, -c.radius⟩
      = Real.pi * (c.radius * c.radius) / 4 :=
  area_norm_quad_bottom c hr (-c.radius) 0 (area_norm_tail_quad_left c hr)

/-- The axis-aligned rectangle exactly covering one coordinate quadrant
of the circle: `sx` selects the left (true) or right (false) side of the
center, `sy` the lower (true) or upper (false) side. -/
def quadRect (c : Circle) (sx sy : Bool) : MyRect :=
  { left := if sx then c.center.1 - c.radius else c.center.1
    right := if sx then c.center.1 else c.center.1 + c.radius
    top := if sy then c.center.2 else c.center.2 + c.radius
    bottom := if sy then c.center.2 - c.radius else c.center.2 }

/-- Every quadrant rectangle of every circle with positive radius gets
exactly a quarter of the disk area through the public entry point. -/
theorem area_rect_quadrant (c : Circle) (hr : 0 < c.radius) (sx sy : Bool) :
    c.area_of_rect_intersection (quadRect c sx sy)
      = Real.pi * (c.radius * c.radius) / 4 := by
  cases sx <;> cases sy
  · rw [area_of_rect_intersection,
      show (⟨(quadRect c false false).left - c.center.1,
            (quadRect c false false).right - c.center.1,
            (quadRect c false false).top - c.center.2,
            (quadRect c false false).bottom - c.center.2⟩ : MyRect)
        = (⟨0, c.radius, c.radius, 0⟩ : MyRect) by simp [quadRect]]
    exact area_norm_quadrant c hr
  · rw [area_of_rect_intersection,
      show (⟨(quadRect c false true).left - c.center.1,
            (quadRect c false true).right - c.center.1,
            (quadRect c false true).top - c.center.2,
            (quadRect c false true).bottom - c.center.2⟩ : MyRect)
        = (⟨0, c.radius, 0, -c.radius⟩ : MyRect) by simp [quadRect]]
    exact area_norm_quadrant_rb c hr
  · rw [area_of_rect_intersection,
      show (⟨(quadRect c true false).left - c.center.1,
            (quadRect c true false).right - c.center.1,
            (quadRect c true false).top - c.center.2,
            (quadRect c true false).bottom - c.center.2⟩ : MyRect)
        = (⟨-c.radius, 0, c.radius, 0⟩ : MyRect) by simp [quadRect]]
    exact area_norm_quadrant_left c hr
  · rw [area_of_rect_intersection,
      show (⟨(quadRect c true true).left - c.center.1,
            (quadRect c true true).right - c.center.1,
            (quadRect c true true).top - c.center.2,
            (quadRect c true true).bottom - c.center.2⟩ : MyRect)
        = (⟨-c.radius, 0, 0, -c.radius⟩ : MyRect) by simp [quadRect]]
    exact area_norm_quadrant_lb c hr

/-- C3: `Circle::area_of_rect_intersection` is exact in the degenerate
configurations: (1) a rectangle whose four corners lie in the closed disk
gets the full rectangle area; (2) a rectangle containing the whole disk
(radius > 0) gets `π·r²`; (3) a rectangle all of whose points lie strictly
outside the closed disk gets `0`; (4) for every circle with positive
radius and each of the four coordinate quadrants, the rectangle exactly
covering that quadrant gets `π·r²/4` — in particular (5) the unit circle
at the origin against `[0, 1] × [0, 1]` gets `π/4`. -/
theorem C3_area_exact_cases :
    (∀ (c : Circle) (rect : MyRect), 0 ≤ c.radius → rect.bottom ≤ rect.top →
      (rect.left - c.center.1) * (rect.left - c.center.1)
          + (rect.bottom - c.center.2) * (rect.bottom - c.center.2)
        ≤ c.radius * c.radius →
      (rect.right - c.center.1) * (rect.right - c.center.1)
          + (rect.bottom - c.center.2) * (rect.bottom - c.center.2)
        ≤ c.radius * c.radius →
      (rect.left - c.center.1) * (rect.left - c.center.1)
          + (rect.top - c.center.2) * (rect.top - c.center.2)
        ≤ c.radius * c.radius →
      (rect.right - c.center.1) * (rect.right - c.center.1)
          + (rect.top - c.center.2) * (rect.top - c.center.2)
        ≤ c.radius * c.radius →
      c.area_of_rect_intersection rect
        = (rect.right - rect.left) * (rect.top - rect.bottom))
    ∧ (∀ (c : Circle) (rect : MyRect), 0 < c.radius →
      rect.left ≤ c.center.1 - c.radius →
      c.center.1 + c.radius ≤ rect.right →
      c.center.2 + c.radius ≤ rect.top →
      rect.bottom ≤ c.center.2 - c.radius →
      c.area_of_rect_intersection rect = Real.pi * (c.radius * c.radius))
    ∧ (∀ (c : Circle) (rect : MyRect), 0 ≤ c.radius →
      rect.left ≤ rect.right → rect.bottom ≤ rect.top →
      (∀ x y, rect.left ≤ x → x ≤ rect.right → rect.bottom ≤ y →
        y ≤ rect.top →
        c.radius * c.radius
          < (x - c.center.1) * (x - c.center.1)
            + (y - c.center.2) * (y - c.center.2)) →
      c.area_of_rect_intersection rect = 0)
    ∧ (∀ (c : Circle) (sx sy : Bool), 0 < c.radius →
      c.area_of_rect_intersection (quadRect c sx sy)
        = Real.pi * (c.radius * c.radius) / 4)
    ∧ (Circle.mk ((0 : ℝ), (0 : ℝ)) 1).area_of_rect_intersection ⟨0, 1, 1, 0⟩
        = Real.pi / 4 := by
  refine ⟨?_, ?_, ?_, fun c sx sy hr => area_rect_quadrant c hr sx sy,
    unit_quadrant⟩
  · intro c rect hr hbt h1 h2 h3 h4
    rw [area_of_rect_intersection]
    rw [area_norm_inside c _ hr (by dsimp; linarith) (by dsimp; exact h1)
      (by dsimp; exact h2) (by dsimp; exact h3) (by dsimp; exact h4)]
    dsimp
    ring
  · intro c rect hr hl hrt ht hb
    rw [area_of_rect_intersection]
    rw [area_norm_disk_inside c _ hr (by dsimp; linarith) (by dsimp; linarith)
      (by dsimp; linarith) (by dsimp; linarith)]
  · intro c rect hr hlr hbt hout
    rw [area_of_rect_intersection]
    refine area_norm_outside c _ hr (by dsimp; linarith) (by dsimp; linarith)
      ?_
    intro x y hx0 hx1 hy0 hy1
    dsimp at hx0 hx1 hy0 hy1
    have hpt := hout (x + c.center.1) (y + c.center.2) (by linarith)
      (by linarith) (by linarith) (by linarith)
    have heq : (x + c.center.1 - c.center.1) * (x + c.center.1 - c.center.1)
        + (y + c.center.2 - c.center.2) * (y + c.center.2 - c.center.2)
        = x * x + y * y := by ring
    rw [heq] at hpt
    exact hpt

/-- Witness for C3: concrete instances of the cases for the unit circle
at the origin — the square `[-1/2, 1/2]²` inside the disk, the square
`[-2, 2]²` containing the disk, the square `[5, 6] × [0, 1]` outside the
disk, the lower-left quadrant rectangle, and the quadrant `[0, 1]²`. -/
theorem C3_area_exact_cases_witness :
    (Circle.mk ((0 : ℝ), (0 : ℝ)) 1).area_of_rect_intersection
        ⟨-(1 / 2), 1 / 2, 1 / 2, -(1 / 2)⟩ = 1
    ∧ (Circle.mk ((0 : ℝ), (0 : ℝ)) 1).area_of_rect_intersection
        ⟨-2, 2, 2, -2⟩ = Real.pi
    ∧ (Circle.mk ((0 : ℝ), (0 : ℝ)) 1).area_of_rect_intersection
        ⟨5, 6, 1, 0⟩ = 0
    ∧ (Circle.mk ((0 : ℝ), (0 : ℝ)) 1).area_of_rect_intersection
        (quadRect (Circle.mk ((0 : ℝ), (0 : ℝ)) 1) true true)
        = Real.pi * ((1 : ℝ) * 1) / 4
    ∧ (Circle.mk ((0 : ℝ), (0 : ℝ)) 1).area_of_rect_intersection
        ⟨0, 1, 1, 0⟩ = Real.pi / 4 := by
  obtain ⟨h1, h2, h3, h4, h5⟩ := C3_area_exact_cases
  refine ⟨?_, ?_, ?_,
    h4 (Circle.mk ((0 : ℝ), (0 : ℝ)) 1) true true (by norm_num), h5⟩
  · rw [h1 (Circle.mk ((0 : ℝ), (0 : ℝ)) 1) ⟨-(1 / 2), 1 / 2, 1 / 2, -(1 / 2)⟩
      (by norm_num) (by norm_num) (by norm_num) (by norm_num) (by norm_num)
      (by norm_num)]
    norm_num
  · rw [h2 (Circle.mk ((0 : ℝ), (0 : ℝ)) 1) ⟨-2, 2, 2, -2⟩ (by norm_num)
      (by norm_num) (by norm_num) (by norm_num) (by norm_num)]
    norm_num
  · exact h3 (Circle.mk ((0 : ℝ), (0 : ℝ)) 1) ⟨5, 6, 1, 0⟩ (by norm_num)
      (by norm_num) (by norm_num)
      (by
        intro x y hx0 hx1 hy0 hy1
        dsimp at hx0 hx1 hy0 hy1 ⊢
        nlinarith [mul_self_nonneg y])

end Circle

/-! ## Claim C2: constant-velocity single-axis pixel sequences -/

/-- A vector of magnitude `q` along the chosen axis (`false` = x-axis,
`true` = y-axis). -/
def axVec (ax : Bool) (q : ℚ) : ℚ × ℚ := if ax then (0, q) else (q, 0)

/-- The integer pixel `m` along the chosen axis. -/
def axPix (ax : Bool) (m : ℤ) : ℤ × ℤ := if ax then (0, m) else (m, 0)

/-- The family of trajectory states reached by a drag-free single-axis
trajectory from the origin: speed `v` along `ax`, advanced to time `t`. -/
def axBall (ax : Bool) (v t : ℚ) : Ballistics :=
  { created := 0
    start_pos := (0, 0)
    start_velocity := axVec ax v
    acceleration := (0, 0)
    cur_pos := axVec ax (v * t)
    last_updated := t
    time_scale := 1
    rebound_efficiency := 1 }

/-- The iterator states arising over `axBall`: `end_time` `E`,
`time_step = 1 / (2v)`, borderless, last pixel `m` on the axis. -/
def axIter (ax : Bool) (v E t : ℚ) (m : ℤ) : IterSt :=
  { end_time := E
    time_step := 1 / (2 * v)
    last_time := t
    last_pos := axPix ax m
    borders := none }

theorem axVec_fst (ax : Bool) (q : ℚ) : (axVec ax q).1 = if ax then 0 else q := by
  cases ax <;> simp [axVec]

theorem axPix_inj (ax : Bool) (m m' : ℤ) :
    axPix ax m = axPix ax m' ↔ m = m' := by
  cases ax <;> simp [axPix, Prod.ext_iff]

theorem pix_axVec (ax : Bool) (q : ℚ) : pix (axVec ax q) = axPix ax ⌊q⌋ := by
  cases ax <;> simp [pix, axVec, axPix]

theorem axBall_pos (ax : Bool) (v t s : ℚ) :
    (axBall ax v t).pos s = axVec ax (v * s) := by
  cases ax <;>
    simp only [axBall, axVec, Ballistics.pos, if_true, if_false, Bool.false_eq_true,
      Prod.ext_iff] <;>
    constructor <;> ring

theorem axBall_velocity (ax : Bool) (v t s : ℚ) :
    (axBall ax v t).velocity s = axVec ax v := by
  cases ax <;>
    simp only [axBall, axVec, Ballistics.velocity, if_true, if_false, Bool.false_eq_true,
      Prod.ext_iff] <;>
    constructor <;> ring

/-- `Ballistics::new` at the origin with a single-axis velocity and no
acceleration is the `t = 0` member of the state family. -/
theorem new_axBall (ax : Bool) (v : ℚ) :
    Ballistics.new (0, 0) (axVec ax v) (0, 0) = axBall ax v 0 := by
  cases ax <;> simp [Ballistics.new, axBall, axVec, mul_zero, Prod.ext_iff]

/-- `positions_iter` on a family state: `end_time` scales by 1, the
constant speed `v > 0` along one axis gives `time_step = 1 / (2v)`, and
the cached pixel is `⌊v t⌋` on the axis. -/
theorem axBall_positions_iter (ax : Bool) (v t E : ℚ) (hv : 0 < v) :
    (axBall ax v t).positions_iter E none = axIter ax v E t ⌊v * t⌋ := by
  rw [Ballistics.positions_iter]
  have hvel : ∀ s : ℚ, (axBall ax v t).velocity s = axVec ax v := axBall_velocity ax v t
  simp only [hvel]
  have hmax :
      max (max (max |(axVec ax v).1| |(axVec ax v).2|) |(axVec ax v).1|) |(axVec ax v).2|
        = v := by
    cases ax <;> simp [axVec, abs_of_pos hv, le_of_lt hv]
  rw [hmax]
  have ht : (axBall ax v t).time_scale = 1 := rfl
  have hlu : (axBall ax v t).last_updated = t := rfl
  have hcp : (axBall ax v t).cur_pos = axVec ax (v * t) := rfl
  rw [ht, hlu, hcp, if_neg (ne_of_gt hv), pix_axVec]
  rw [axIter, mul_one]

theorem axIter_last_time (ax : Bool) (v E t : ℚ) (m : ℤ) :
    (axIter ax v E t m).last_time = t := rfl

theorem axIter_end_time (ax : Bool) (v E t : ℚ) (m : ℤ) :
    (axIter ax v E t m).end_time = E := rfl

theorem axIter_time_step (ax : Bool) (v E t : ℚ) (m : ℤ) :
    (axIter ax v E t m).time_step = 1 / (2 * v) := rfl

theorem mul_min_pos (v a b : ℚ) (hv : 0 ≤ v) :
    v * min a b = min (v * a) (v * b) := by
  rcases le_total a b with h | h
  · rw [min_eq_left h, min_eq_left (mul_le_mul_of_nonneg_left h hv)]
  · rw [min_eq_right h, min_eq_right (mul_le_mul_of_nonneg_left h hv)]

/-- One `next()` call on a family state that still has a pixel to yield
(`m + 1 ≤ v E`): it yields pixel `m + 1` on the axis within at most two
loop iterations, re-establishing the stepping invariant. -/
theorem axNext_yield (ax : Bool) (v E nt : ℚ) (m : ℤ) (hv : 0 < v)
    (h1 : (m : ℚ) ≤ v * min E nt) (h2 : v * min E nt < (m : ℚ) + 1)
    (h3 : (m : ℚ) + 1 ≤ v * E) :
    ∃ nt', (iterNext 3 (axBall ax v (min E nt)) (axIter ax v E nt m)
        = NextRes.yield (axPix ax (m + 1)) (axBall ax v (min E nt'))
            (axIter ax v E nt' (m + 1)))
      ∧ (m : ℚ) + 1 ≤ v * min E nt' ∧ v * min E nt' < (m : ℚ) + 2 := by
  have hstep : v * (1 / (2 * v)) = 1 / 2 := by
    field_simp
    ring
  have hntE : nt ≤ E := by
    by_contra hcon
    push_neg at hcon
    rw [min_eq_left hcon.le] at h2
    linarith
  have hminnt : min E nt = nt := min_eq_right hntE
  rw [hminnt] at h1 h2 ⊢
  have hmin1 : v * min E (nt + 1 / (2 * v))
      = min (v * E) (v * (nt + 1 / (2 * v))) :=
    mul_min_pos v E _ hv.le
  have hvnts : v * (nt + 1 / (2 * v)) = v * nt + 1 / 2 := by
    rw [mul_add, hstep]
  have hub1 : v * min E (nt + 1 / (2 * v)) ≤ v * nt + 1 / 2 := by
    rw [hmin1, hvnts]
    exact min_le_right _ _
  rcases le_or_lt ((m : ℚ) + 1) (v * min E (nt + 1 / (2 * v)))
    with hA | hB
  · refine ⟨nt + 1 / (2 * v), ?_, hA, ?_⟩
    · have hfloor : ⌊v * min E (nt + 1 / (2 * v))⌋ = m + 1 := by
        rw [Int.floor_eq_iff]
        push_cast
        constructor
        · linarith
        · linarith
      have hpix : pix ((axBall ax v nt).pos (min E (nt + 1 / (2 * v))))
          = axPix ax (m + 1) := by
        rw [axBall_pos, pix_axVec, hfloor]
      have hne : ¬ (axIter ax v E nt m).last_pos
          = pix ((axBall ax v nt).pos (min (axIter ax v E nt m).end_time
              (nt + (axIter ax v E nt m).time_step))) := by
        show ¬ axPix ax m = pix ((axBall ax v nt).pos (min E (nt + 1 / (2 * v))))
        rw [hpix, axPix_inj]
        omega
      have e := nextAux_succ_yield_free 3 2 rfl (axBall ax v nt)
        (axIter ax v E nt m) nt false hntE hne rfl
      rw [iterNext, axIter_last_time, e]
      simp only [axIter_end_time, axIter_time_step]
      rw [hpix, axBall_pos]
      rfl
    · linarith [hub1]
  · -- skip once, then yield on the second iteration
    have hlb1 : (m : ℚ) ≤ v * min E (nt + 1 / (2 * v)) := by
      rw [hmin1]
      exact le_min (by linarith) (by linarith [hvnts])
    have hfloor1 : ⌊v * min E (nt + 1 / (2 * v))⌋ = m := by
      rw [Int.floor_eq_iff]
      push_cast
      exact ⟨hlb1, hB⟩
    have hntsE : nt + 1 / (2 * v) ≤ E := by
      by_contra hcon
      push_neg at hcon
      rw [min_eq_left hcon.le] at hB
      linarith
    have hskip : (axIter ax v E nt m).last_pos
        = pix ((axBall ax v nt).pos (min (axIter ax v E nt m).end_time
            (nt + (axIter ax v E nt m).time_step))) := by
      show axPix ax m = pix ((axBall ax v nt).pos (min E (nt + 1 / (2 * v))))
      rw [axBall_pos, pix_axVec, hfloor1]
    have e1 := nextAux_succ_skip 3 2 rfl (axBall ax v nt)
      (axIter ax v E nt m) nt false hntE hskip
    have hmin2 : v * min E (nt + 1 / (2 * v) + 1 / (2 * v))
        = min (v * E) (v * (nt + 1 / (2 * v) + 1 / (2 * v))) :=
      mul_min_pos v E _ hv.le
    have hvnts2 : v * (nt + 1 / (2 * v) + 1 / (2 * v)) = v * nt + 1 := by
      rw [mul_add, mul_add, hstep]
      ring
    have hlb2 : (m : ℚ) + 1 ≤ v * min E (nt + 1 / (2 * v) + 1 / (2 * v)) := by
      rw [hmin2]
      exact le_min (by linarith) (by linarith [hvnts2])
    have hub2 : v * min E (nt + 1 / (2 * v) + 1 / (2 * v)) < (m : ℚ) + 2 := by
      have : v * min E (nt + 1 / (2 * v) + 1 / (2 * v))
          ≤ v * (nt + 1 / (2 * v) + 1 / (2 * v)) := by
        rw [hmin2]
        exact min_le_right _ _
      linarith [hvnts2]
    refine ⟨nt + 1 / (2 * v) + 1 / (2 * v), ?_, hlb2, hub2⟩
    have hfloor2 : ⌊v * min E (nt + 1 / (2 * v) + 1 / (2 * v))⌋ = m + 1 := by
      rw [Int.floor_eq_iff]
      push_cast
      exact ⟨hlb2, by linarith⟩
    have hpix2 : pix ((axBall ax v nt).pos
          (min E (nt + 1 / (2 * v) + 1 / (2 * v)))) = axPix ax (m + 1) := by
      rw [axBall_pos, pix_axVec, hfloor2]
    have hne2 : ¬ (axIter ax v E nt m).last_pos
        = pix ((axBall ax v nt).pos (min (axIter ax v E nt m).end_time
            (nt + 1 / (2 * v) + (axIter ax v E nt m).time_step))) := by
      show ¬ axPix ax m = pix ((axBall ax v nt).pos
        (min E (nt + 1 / (2 * v) + 1 / (2 * v))))
      rw [hpix2, axPix_inj]
      omega
    have e2 := nextAux_succ_yield_free 2 1 rfl (axBall ax v nt)
      (axIter ax v E nt m) (nt + 1 / (2 * v)) false hntsE hne2 rfl
    rw [iterNext, axIter_last_time, e1]
    simp only [axIter_time_step]
    rw [e2]
    simp only [axIter_end_time, axIter_time_step]
    rw [hpix2, axBall_pos]
    rfl

/-- One `next()` call on a family state that has no pixel left
(`v E < m + 1`): the loop drains within at most two skipped iterations and
returns `None`, snapping the trajectory to `end_time`. -/
theorem axNext_done (ax : Bool) (v E nt : ℚ) (m : ℤ) (hv : 0 < v)
    (h1 : (m : ℚ) ≤ v * min E nt) (h2 : v * min E nt < (m : ℚ) + 1)
    (h3 : v * E < (m : ℚ) + 1) :
    iterNext 3 (axBall ax v (min E nt)) (axIter ax v E nt m)
      = NextRes.done (axBall ax v E) := by
  have hstep : v * (1 / (2 * v)) = 1 / 2 := by
    field_simp
    ring
  rcases le_or_lt nt E with hntE | hgt
  · have hminnt : min E nt = nt := min_eq_right hntE
    rw [hminnt] at h1 h2 ⊢
    have hvE : v * nt ≤ v * E := mul_le_mul_of_nonneg_left hntE hv.le
    have hmin1 : v * min E (nt + 1 / (2 * v))
        = min (v * E) (v * (nt + 1 / (2 * v))) := mul_min_pos v E _ hv.le
    have hvnts : v * (nt + 1 / (2 * v)) = v * nt + 1 / 2 := by
      rw [mul_add, hstep]
    have hfloor1 : ⌊v * min E (nt + 1 / (2 * v))⌋ = m := by
      rw [Int.floor_eq_iff]
      constructor
      · rw [hmin1]
        exact le_min (by linarith) (by linarith [hvnts])
      · push_cast
        calc v * min E (nt + 1 / (2 * v)) ≤ v * E := by
              rw [hmin1]; exact min_le_left _ _
          _ < (m : ℚ) + 1 := h3
    have hskip1 : (axIter ax v E nt m).last_pos
        = pix ((axBall ax v nt).pos (min (axIter ax v E nt m).end_time
            (nt + (axIter ax v E nt m).time_step))) := by
      show axPix ax m = pix ((axBall ax v nt).pos (min E (nt + 1 / (2 * v))))
      rw [axBall_pos, pix_axVec, hfloor1]
    have e1 := nextAux_succ_skip 3 2 rfl (axBall ax v nt)
      (axIter ax v E nt m) nt false hntE hskip1
    rcases le_or_lt (nt + 1 / (2 * v)) E with hntsE | hgt2
    · -- second skipped iteration, then the loop guard fails
      have hmin2 : v * min E (nt + 1 / (2 * v) + 1 / (2 * v))
          = min (v * E) (v * (nt + 1 / (2 * v) + 1 / (2 * v))) :=
        mul_min_pos v E _ hv.le
      have hfloor2 : ⌊v * min E (nt + 1 / (2 * v) + 1 / (2 * v))⌋ = m := by
        rw [Int.floor_eq_iff]
        constructor
        · rw [hmin2]
          refine le_min (by linarith) ?_
          have : v * (nt + 1 / (2 * v) + 1 / (2 * v)) = v * nt + 1 := by
            rw [mul_add, mul_add, hstep]
            ring
          linarith
        · push_cast
          calc v * min E (nt + 1 / (2 * v) + 1 / (2 * v)) ≤ v * E := by
                rw [hmin2]; exact min_le_left _ _
            _ < (m : ℚ) + 1 := h3
      have hskip2 : (axIter ax v E nt m).last_pos
          = pix ((axBall ax v nt).pos (min (axIter ax v E nt m).end_time
              (nt + 1 / (2 * v) + (axIter ax v E nt m).time_step))) := by
        show axPix ax m = pix ((axBall ax v nt).pos
          (min E (nt + 1 / (2 * v) + 1 / (2 * v))))
        rw [axBall_pos, pix_axVec, hfloor2]
      have e2 := nextAux_succ_skip 2 1 rfl (axBall ax v nt)
        (axIter ax v E nt m) (nt + 1 / (2 * v)) false hntsE hskip2
      have hgt3 : ¬ (nt + 1 / (2 * v) + 1 / (2 * v) ≤ E) := by
        intro hcon
        have hmul := mul_le_mul_of_nonneg_left hcon hv.le
        have : v * (nt + 1 / (2 * v) + 1 / (2 * v)) = v * nt + 1 := by
          rw [mul_add, mul_add, hstep]
          ring
        linarith
      have e3 := nextAux_succ_done 1 0 rfl (axBall ax v nt)
        (axIter ax v E nt m) (nt + 1 / (2 * v) + 1 / (2 * v)) false hgt3
      rw [iterNext, axIter_last_time, e1]
      simp only [axIter_time_step]
      rw [e2]
      simp only [axIter_time_step]
      rw [e3, axIter_end_time, axBall_pos]
      rfl
    · -- the loop guard fails right after the first skip
      have e2 := nextAux_succ_done 2 1 rfl (axBall ax v nt)
        (axIter ax v E nt m) (nt + 1 / (2 * v)) false (not_le.mpr hgt2)
      rw [iterNext, axIter_last_time, e1]
      simp only [axIter_time_step]
      rw [e2, axIter_end_time, axBall_pos]
      rfl
  · -- the loop guard fails immediately
    have hminE : min E nt = E := min_eq_left hgt.le
    rw [hminE]
    have e := nextAux_succ_done 3 2 rfl (axBall ax v E)
      (axIter ax v E nt m) nt false (not_le.mpr hgt)
    rw [iterNext, axIter_last_time, e, axIter_end_time, axBall_pos]
    rfl

/-- Draining the iterator from a family state: with `k = ⌊v E⌋ - m` pixels
left it yields exactly `m + 1, …, m + k` on the axis and then `None`,
leaving the trajectory snapped to `end_time`. -/
theorem axRun (ax : Bool) (v E : ℚ) (hv : 0 < v) :
    ∀ (k : ℕ) (nt : ℚ) (m : ℤ),
      (m : ℚ) ≤ v * min E nt → v * min E nt < (m : ℚ) + 1 →
      m + (k : ℤ) = ⌊v * E⌋ →
      iterRun (k + 1) 3 (axBall ax v (min E nt)) (axIter ax v E nt m)
        = ((List.range k).map fun i : ℕ => axPix ax (m + 1 + (i : ℤ)),
           axBall ax v E, true) := by
  intro k
  induction k with
  | zero =>
    intro nt m h1 h2 hk
    have h3 : v * E < (m : ℚ) + 1 := by
      have hm : m = ⌊v * E⌋ := by omega
      rw [hm]
      exact_mod_cast Int.lt_floor_add_one (v * E)
    rw [iterRun_succ_done 1 0 rfl 3 _ _ _ (axNext_done ax v E nt m hv h1 h2 h3)]
    simp
  | succ k ih =>
    intro nt m h1 h2 hk
    have h3 : (m : ℚ) + 1 ≤ v * E := by
      have hm : m + 1 ≤ ⌊v * E⌋ := by omega
      exact_mod_cast Int.le_floor.mp hm
    obtain ⟨nt', he, hI1, hI2⟩ := axNext_yield ax v E nt m hv h1 h2 h3
    have hrec := ih nt' (m + 1) (by exact_mod_cast hI1)
      (by push_cast; linarith) (by omega)
    rw [iterRun_succ_yield (k + 1 + 1) (k + 1) rfl 3 _ _ _ _ _ he, hrec]
    show (axPix ax (m + 1)
        :: (List.range k).map fun i : ℕ => axPix ax (m + 1 + 1 + (i : ℤ)),
      axBall ax v E, true) = _
    rw [List.range_succ_eq_map, List.map_cons, List.map_map]
    congr 1
    congr 1
    · exact (axPix_inj ax _ _).mpr (by push_cast; ring)
    · refine List.map_congr_left fun i _ => ?_
      show axPix ax (m + 1 + 1 + (i : ℤ)) = axPix ax (m + 1 + ((i + 1 : ℕ) : ℤ))
      exact (axPix_inj ax _ _).mpr (by push_cast; ring)

/-- C2: a drag-free trajectory from the origin with speed `v > 0` along a
single axis, drained through `positions_iter(Some(T), None)`, yields
exactly `⌊v T⌋` pixel transitions — the consecutive axis pixels
`1, …, ⌊v T⌋` — and then `None` (the `true` flag); after exhaustion
`cur_pos = pos(T)` and `last_updated = T` (exactly, in the exact-rational
model); a second `positions_iter(Some(2 T), None)` continues with the
following consecutive pixels `⌊v T⌋ + 1, …, ⌊2 v T⌋`. -/
theorem C2_axis_pixels (v T : ℚ) (ax : Bool) (hv : 0 < v) (hT : 0 ≤ T) :
    (iterRun (⌊v * T⌋.toNat + 1) 3
        (Ballistics.new (0, 0) (axVec ax v) (0, 0))
        ((Ballistics.new (0, 0) (axVec ax v) (0, 0)).positions_iter T none)
      = ((List.range ⌊v * T⌋.toNat).map fun i : ℕ => axPix ax (1 + (i : ℤ)),
         axBall ax v T, true))
    ∧ (axBall ax v T).cur_pos = (axBall ax v T).pos T
    ∧ (axBall ax v T).last_updated = T
    ∧ (iterRun ((⌊v * (2 * T)⌋ - ⌊v * T⌋).toNat + 1) 3 (axBall ax v T)
        ((axBall ax v T).positions_iter (2 * T) none)
      = ((List.range (⌊v * (2 * T)⌋ - ⌊v * T⌋).toNat).map
           fun i : ℕ => axPix ax (⌊v * T⌋ + 1 + (i : ℤ)),
         axBall ax v (2 * T), true)) := by
  have hvT : 0 ≤ v * T := mul_nonneg hv.le hT
  have hfl0 : 0 ≤ ⌊v * T⌋ := Int.floor_nonneg.mpr hvT
  refine ⟨?_, ?_, rfl, ?_⟩
  · rw [new_axBall, axBall_positions_iter ax v 0 T hv, mul_zero,
      Int.floor_zero]
    have hmin : min T 0 = 0 := min_eq_right hT
    have hrun := axRun ax v T hv ⌊v * T⌋.toNat 0 0
      (by rw [hmin, mul_zero]; exact le_refl 0)
      (by rw [hmin, mul_zero]; norm_num)
      (by omega)
    rw [hmin] at hrun
    simp only [zero_add] at hrun
    exact hrun
  · rw [axBall_pos]
    rfl
  · rw [axBall_positions_iter ax v T (2 * T) hv]
    have hmin : min (2 * T) T = T := min_eq_right (by linarith)
    have hle : v * T ≤ v * (2 * T) := by nlinarith
    have hflle : ⌊v * T⌋ ≤ ⌊v * (2 * T)⌋ := Int.floor_le_floor hle
    have hrun := axRun ax v (2 * T) hv (⌊v * (2 * T)⌋ - ⌊v * T⌋).toNat
      T ⌊v * T⌋
      (by rw [hmin]; exact Int.floor_le _)
      (by rw [hmin]; exact_mod_cast Int.lt_floor_add_one (v * T))
      (by omega)
    rw [hmin] at hrun
    exact hrun

/-- Witness for C2: the unit-speed horizontal trajectory over `T = 1` and
its continuation to `2`. -/
theorem C2_axis_pixels_witness :
    (0 : ℚ) < 1 ∧ (0 : ℚ) ≤ 1
    ∧ ((iterRun (⌊(1 : ℚ) * 1⌋.toNat + 1) 3
        (Ballistics.new (0, 0) (axVec false 1) (0, 0))
        ((Ballistics.new (0, 0) (axVec false 1) (0, 0)).positions_iter 1 none)
      = ((List.range ⌊(1 : ℚ) * 1⌋.toNat).map
           fun i : ℕ => axPix false (1 + (i : ℤ)),
         axBall false 1 1, true))
    ∧ (axBall false 1 1).cur_pos = (axBall false 1 1).pos 1
    ∧ (axBall false 1 1).last_updated = 1
    ∧ (iterRun ((⌊(1 : ℚ) * (2 * 1)⌋ - ⌊(1 : ℚ) * 1⌋).toNat + 1) 3
        (axBall false 1 1)
        ((axBall false 1 1).positions_iter (2 * 1) none)
      = ((List.range (⌊(1 : ℚ) * (2 * 1)⌋ - ⌊(1 : ℚ) * 1⌋).toNat).map
           fun i : ℕ => axPix false (⌊(1 : ℚ) * 1⌋ + 1 + (i : ℤ)),
         axBall false 1 (2 * 1), true))) :=
  ⟨by norm_num, by norm_num,
    C2_axis_pixels 1 1 false (by norm_num) (by norm_num)⟩

end TankWar
